import Mathlib

/-
Verification of the Thompson NFA pattern engine of src/c_lint/lint.c
(`nfa_compile`, `nfa_search` and their helpers).

Modelling conventions of the shallow embedding:
  * bytes are `Nat` (the C code only ever produces values 0..255);
  * C `int` state indices are `Int`, keeping the C sentinel `-1`;
  * a C pattern string is a `List Nat` of its bytes (the NUL terminator is
    the end of the list; C strings cannot contain an interior NUL);
  * the scanned line is a `List Nat` together with an explicit length,
    exactly as `nfa_search(prog, str, len)` receives it;
  * the 32-byte class bitmap `unsigned char cls[32]` is modelled by its
    characteristic function `Nat → Bool` on byte values;
  * the unbounded C loops are given explicit counters: the compile loop and
    the two search loops advance their position every iteration, so a
    counter equal to the number of remaining positions reproduces the C
    control flow exactly; the recursive `nfa_add_epsilon` gets a fuel that
    is never exhausted on the programs this compiler emits.
-/

def NFA_MAX_STATES : Nat := 512

def NFA_MAX_LIST : Nat := 1024

/-- C `tolower` on an unsigned char in the C locale: fold ASCII A-Z. -/
def ctolower (c : Nat) : Nat := if 65 ≤ c ∧ c ≤ 90 then c + 32 else c

/-- lint.c:59-61 `nfa_normalize`. -/
def nfa_normalize (c : Nat) (cs : Bool) : Nat := if cs then c else ctolower c

/-- lint.c:30 `nfa_stype_t`. -/
inductive nfa_stype_t where
  | st_char
  | st_any
  | st_class
  | st_split
  | st_match
  | st_bol
  | st_eol
deriving DecidableEq, Inhabited, Repr

/-- lint.c:32-38 `nfa_state_t` (the bitmap as a characteristic function). -/
structure nfa_state_t where
  type : nfa_stype_t
  c : Nat
  cls : Nat → Bool
  out : Int
  out1 : Int
deriving Inhabited

/-- lint.c:40-45 `nfa_program_t` (`states` holds the used prefix of the array). -/
structure nfa_program_t where
  start_state : Int
  state_count : Nat
  case_sensitive : Bool
  states : List nfa_state_t
deriving Inhabited

/-- lint.c:53-57 `nfa_match_t`. -/
structure nfa_match_t where
  start : Nat
  «end» : Nat
  found : Bool
deriving DecidableEq, Repr

/-- Read `prog->states[i]` (all reads in the C code are in bounds). -/
def nth_state (prog : nfa_program_t) (i : Nat) : nfa_state_t :=
  prog.states.getD i default

/-- lint.c:63-65 `nfa_cls_set`: add byte `b` to the class. -/
def nfa_cls_set (cls : Nat → Bool) (b : Nat) : Nat → Bool :=
  fun x => if x = b then true else cls x

/-- lint.c:145-146: swap a reversed range, then set every byte `a..b`. -/
def nfa_cls_set_range (cls : Nat → Bool) (a b : Nat) : Nat → Bool :=
  fun x =>
    if (if a > b then b else a) ≤ x ∧ x ≤ (if a > b then a else b) then true
    else cls x

/-- lint.c:67-69 `nfa_cls_has`. -/
def nfa_cls_has (cls : Nat → Bool) (b : Nat) : Bool := cls b

/-- lint.c:155-157: under negation flip all 256 bits, then unconditionally
re-exclude the newline byte 10. -/
def nfa_class_negate (cls : Nat → Bool) : Nat → Bool :=
  fun b => if b = 10 then false else !(cls b)

/-- lint.c:71-80 `nfa_add_state`; `none` is the C return value -1. -/
def nfa_add_state (prog : nfa_program_t) (t : nfa_stype_t) (c : Nat)
    (out out1 : Int) : Option (nfa_program_t × Nat) :=
  if prog.state_count ≥ NFA_MAX_STATES then none
  else
    some ({ prog with
              state_count := prog.state_count + 1,
              states := prog.states ++ [⟨t, c, fun _ => false, out, out1⟩] },
          prog.state_count)

/-- Direct write `prog->states[s].out = target` (lint.c:126, 166, 186). -/
def nfa_set_out (prog : nfa_program_t) (s : Nat) (target : Int) : nfa_program_t :=
  { prog with states := prog.states.set s ({ nth_state prog s with out := target }) }

/-- The `memcpy` of the parsed bitmap into the fresh class state (lint.c:161). -/
def nfa_set_cls (prog : nfa_program_t) (s : Nat) (cls : Nat → Bool) : nfa_program_t :=
  { prog with states := prog.states.set s ({ nth_state prog s with cls := cls }) }

/-- lint.c:82-90 `nfa_patch`. -/
def nfa_patch (prog : nfa_program_t) (s : Int) (target : Int) : nfa_program_t :=
  if s < 0 then prog
  else
    let st := nth_state prog s.toNat
    if st.type = .st_split then
      if st.out1 < 0 then
        { prog with states := prog.states.set s.toNat ({ st with out1 := target }) }
      else
        { prog with states := prog.states.set s.toNat ({ st with out := target }) }
    else
      { prog with states := prog.states.set s.toNat ({ st with out := target }) }

/-- The `if (start == -1) start = s; else nfa_patch(prog, last, s); last = s;`
sequence that links a freshly added consuming state into the fragment
(lint.c:112-113, 120-121, 162-163, 181-182). -/
def nfa_link (prog : nfa_program_t) (s : Nat) (start last : Int) :
    nfa_program_t × Int × Int :=
  if start = -1 then (prog, Int.ofNat s, Int.ofNat s)
  else (nfa_patch prog last (Int.ofNat s), start, Int.ofNat s)

/-- The `if (*p == '*')` closure block that follows each consuming unit
(lint.c:123-132, 164-173, 184-193); `s` is the unit just linked, which at
this point is also `last`. -/
def nfa_star (prog : nfa_program_t) (s : Nat) (start last : Int) :
    Option (nfa_program_t × Int × Int) :=
  match nfa_add_state prog .st_split 0 (-1) (-1) with
  | none => none
  | some (prog1, split) =>
    let prog2 := nfa_set_out prog1 s (Int.ofNat split)
    let prog3 := nfa_set_out prog2 split (Int.ofNat s)
    if start = Int.ofNat s then some (prog3, Int.ofNat split, Int.ofNat split)
    else some (nfa_patch prog3 last (Int.ofNat split), start, Int.ofNat split)

/-- lint.c:141-152: the scan of a class body (`while (*p && *p != ']')`),
accumulating the bitmap; returns the bitmap and the rest of the pattern.
Every iteration consumes at least one byte, so a counter of `|body| + 1`
iterations reproduces the loop (case 0 is never reached).
Byte 45 is `-`, byte 93 is `]`. -/
def nfa_class_loop (cs : Bool) : Nat → (Nat → Bool) → List Nat → (Nat → Bool) × List Nat
  | 0, cls, p => (cls, p)
  | _ + 1, cls, [] => (cls, [])
  | fuel + 1, cls, c :: rest =>
    if c = 93 then (cls, c :: rest)
    else
      match rest with
      | d :: c2 :: rest2 =>
        if d = 45 ∧ c2 ≠ 0 ∧ c2 ≠ 93 then
          nfa_class_loop cs fuel
            (nfa_cls_set_range cls (nfa_normalize c cs) (nfa_normalize c2 cs)) rest2
        else
          nfa_class_loop cs fuel (nfa_cls_set cls (nfa_normalize c cs)) (d :: c2 :: rest2)
      | _ => nfa_class_loop cs fuel (nfa_cls_set cls (nfa_normalize c cs)) rest

/-- lint.c:135-174: one `[...]` unit, from just after the `[` up to and
including an optional trailing `*`; returns the updated program, `start`,
`last` and the unconsumed rest.  Byte 94 is `^`, 93 is `]`, 42 is `*`. -/
def nfa_compile_class (cs : Bool) (prog : nfa_program_t) (start last : Int)
    (p : List Nat) : Option (nfa_program_t × Int × Int × List Nat) :=
  let negate : Bool := p.headD 0 == 94
  let p1 := if negate then p.tail else p
  match p1 with
  | [] => none
  | e :: _ =>
    if e = 93 then none
    else
      match nfa_class_loop cs (p1.length + 1) (fun _ => false) p1 with
      | (cls0, p2) =>
        match p2 with
        | 93 :: p3 =>
          let cls1 := if negate then nfa_class_negate cls0 else cls0
          match nfa_add_state prog .st_class 0 (-1) (-1) with
          | none => none
          | some (prog1, s) =>
            let prog2 := nfa_set_cls prog1 s cls1
            match nfa_link prog2 s start last with
            | (prog3, start3, last3) =>
              match p3 with
              | 42 :: p4 =>
                match nfa_star prog3 s start3 last3 with
                | none => none
                | some (prog4, start4, last4) => some (prog4, start4, last4, p4)
              | _ => some (prog3, start3, last3, p3)
        | _ => none

/-- lint.c:106-194, the main `while (*p && *p != '$')` compile loop.  Every
iteration consumes at least one pattern byte, so a counter of
`|pattern| + 1` iterations reproduces the loop; the counter case 0 is never
reached.  Bytes: 36 `$`, 92 `\`, 46 `.`, 42 `*`, 91 `[`. -/
def nfa_compile_loop (cs : Bool) :
    Nat → nfa_program_t → Int → Int → List Nat →
    Option (nfa_program_t × List Nat × Int × Int)
  | 0, _, _, _, _ => none
  | _ + 1, prog, start, last, [] => some (prog, [], start, last)
  | fuel + 1, prog, start, last, c :: rest =>
    if c = 36 then some (prog, c :: rest, start, last)
    else if c = 92 then
      match rest with
      | [] => some (prog, [], start, last)
      | d :: rest2 =>
        match nfa_add_state prog .st_char (nfa_normalize d cs) (-1) (-1) with
        | none => none
        | some (prog1, s) =>
          match nfa_link prog1 s start last with
          | (prog2, start2, last2) => nfa_compile_loop cs fuel prog2 start2 last2 rest2
    else if c = 46 then
      match nfa_add_state prog .st_any 0 (-1) (-1) with
      | none => none
      | some (prog1, s) =>
        match nfa_link prog1 s start last with
        | (prog2, start2, last2) =>
          match rest with
          | 42 :: rest2 =>
            match nfa_star prog2 s start2 last2 with
            | none => none
            | some (prog3, start3, last3) =>
              nfa_compile_loop cs fuel prog3 start3 last3 rest2
          | _ => nfa_compile_loop cs fuel prog2 start2 last2 rest
    else if c = 91 then
      match nfa_compile_class cs prog start last rest with
      | none => none
      | some (prog3, start3, last3, rest3) =>
        nfa_compile_loop cs fuel prog3 start3 last3 rest3
    else if c = 42 then none
    else
      match nfa_add_state prog .st_char (nfa_normalize c cs) (-1) (-1) with
      | none => none
      | some (prog1, s) =>
        match nfa_link prog1 s start last with
        | (prog2, start2, last2) =>
          match rest with
          | 42 :: rest2 =>
            match nfa_star prog2 s start2 last2 with
            | none => none
            | some (prog3, start3, last3) =>
              nfa_compile_loop cs fuel prog3 start3 last3 rest2
          | _ => nfa_compile_loop cs fuel prog2 start2 last2 rest

/-- lint.c:199-220: attach the anchors and the match state and fix up
`start`, exactly as written (including `start` being overwritten by the
`else` branches at lines 213 and 216 when no consuming unit was emitted). -/
def nfa_compile_finish (prog : nfa_program_t) (start last : Int) (sa ea : Bool) :
    Option nfa_program_t :=
  match (if sa then
           match nfa_add_state prog .st_bol 0 start (-1) with
           | none => none
           | some (prog1, bol) => some (prog1, Int.ofNat bol)
         else some (prog, start)) with
  | none => none
  | some (prog1, start1) =>
    match nfa_add_state prog1 .st_match 0 (-1) (-1) with
    | none => none
    | some (prog2, m) =>
      if ea then
        match nfa_add_state prog2 .st_eol 0 (Int.ofNat m) (-1) with
        | none => none
        | some (prog3, eol) =>
          if 0 ≤ last then
            some { nfa_patch prog3 last (Int.ofNat eol) with start_state := start1 }
          else some { prog3 with start_state := Int.ofNat eol }
      else
        if 0 ≤ last then
          some { nfa_patch prog2 last (Int.ofNat m) with start_state := start1 }
        else some { prog2 with start_state := Int.ofNat m }

/-- lint.c:93-221 `nfa_compile`; `none` is the C `return false`.
Byte 94 is `^`, byte 36 is `$`. -/
def nfa_compile (pattern : List Nat) (case_sensitive : Bool) :
    Option nfa_program_t :=
  match pattern with
  | [] => none
  | _ :: _ =>
    let prog0 : nfa_program_t := ⟨0, 0, case_sensitive, []⟩
    let sa : Bool := pattern.headD 0 == 94
    let p0 := if sa then pattern.tail else pattern
    match nfa_compile_loop case_sensitive (p0.length + 1) prog0 (-1) (-1) p0 with
    | none => none
    | some (prog1, rest1, start1, last1) =>
      let ea : Bool := rest1.headD 0 == 36
      let rest2 := if ea then rest1.tail else rest1
      if rest2 = [] then nfa_compile_finish prog1 start1 last1 sa ea
      else none

/-- lint.c:225-227 `nfa_list_add`: append, silently discarding on overflow. -/
def nfa_list_add (l : List Int) (s : Int) : List Int :=
  if l.length < NFA_MAX_LIST then l ++ [s] else l

/-- Fuel for `nfa_add_epsilon`: the C recursion is unbounded but every
epsilon path in a program emitted by `nfa_compile` is shorter than the
number of states, so `NFA_MAX_STATES` steps are never exhausted. -/
def nfa_fuel : Nat := NFA_MAX_STATES

/-- lint.c:230-248 `nfa_add_epsilon`: follow Split both ways, anchors only
when the corresponding flag holds, and add every other state reached. -/
def nfa_add_epsilon (prog : nfa_program_t) :
    Nat → List Int → Int → Bool → Bool → List Int
  | 0, l, _, _, _ => l
  | fuel + 1, l, s, at_bol, at_eol =>
    if s < 0 then l
    else
      match (nth_state prog s.toNat).type with
      | .st_split =>
        let l1 :=
          if 0 ≤ (nth_state prog s.toNat).out1 then
            nfa_add_epsilon prog fuel l (nth_state prog s.toNat).out1 at_bol at_eol
          else l
        nfa_add_epsilon prog fuel l1 (nth_state prog s.toNat).out at_bol at_eol
      | .st_bol =>
        if at_bol then nfa_add_epsilon prog fuel l (nth_state prog s.toNat).out at_bol at_eol
        else l
      | .st_eol =>
        if at_eol then nfa_add_epsilon prog fuel l (nth_state prog s.toNat).out at_bol at_eol
        else l
      | _ => nfa_list_add l s

/-- lint.c:251-271 `nfa_step`: one byte of input over the current list. -/
def nfa_step (prog : nfa_program_t) (cur : List Int) (byte : Nat) : List Int :=
  cur.foldl
    (fun next s =>
      match (nth_state prog s.toNat).type with
      | .st_char =>
        if byte = (nth_state prog s.toNat).c then
          nfa_list_add next (nth_state prog s.toNat).out
        else next
      | .st_any => nfa_list_add next (nth_state prog s.toNat).out
      | .st_class =>
        if nfa_cls_has (nth_state prog s.toNat).cls byte then
          nfa_list_add next (nth_state prog s.toNat).out
        else next
      | _ => next)
    []

/-- lint.c:274-279 `nfa_has_match`. -/
def nfa_has_match (prog : nfa_program_t) (l : List Int) : Bool :=
  l.any fun s =>
    match (nth_state prog s.toNat).type with
    | .st_match => true
    | _ => false

/-- The epsilon-closure pass over a freshly stepped list (lint.c:308-311
and the end-of-string pass at lint.c:326-329). -/
def nfa_closure (prog : nfa_program_t) (l : List Int) (at_eol : Bool) : List Int :=
  l.foldl (fun acc s => nfa_add_epsilon prog nfa_fuel acc s false at_eol) []

/-- lint.c:301-336, the inner byte loop of `nfa_search` for one start
offset plus the end-of-line check after it.  The counter is the number of
remaining byte positions, `len - pos`; the counter case 0 is the loop exit
`pos = len`. -/
def nfa_search_inner (prog : nfa_program_t) (str : List Nat) (len sp : Nat) :
    Nat → Nat → List Int → Option nfa_match_t
  | 0, _, cur =>
    if 0 < cur.length then
      if nfa_has_match prog (nfa_closure prog cur true) then some ⟨sp, len, true⟩
      else none
    else none
  | fuel + 1, pos, cur =>
    let byte := nfa_normalize (str.getD pos 0) prog.case_sensitive
    let at_eol : Bool := pos == len - 1
    let closure := nfa_closure prog (nfa_step prog cur byte) at_eol
    if nfa_has_match prog closure then some ⟨sp, pos + 1, true⟩
    else if closure.length = 0 then none
    else nfa_search_inner prog str len sp fuel (pos + 1) closure

/-- lint.c:288-299: the body of the outer loop at one start offset — initial
epsilon closure, zero-length-match check, then the inner loop. -/
def nfa_search_at (prog : nfa_program_t) (str : List Nat) (len sp : Nat) :
    Option nfa_match_t :=
  let cur := nfa_add_epsilon prog nfa_fuel [] prog.start_state (sp == 0) false
  if nfa_has_match prog cur then some ⟨sp, sp, true⟩
  else nfa_search_inner prog str len sp (len - sp) sp cur

/-- lint.c:288-339, the outer `for (start_pos = 0; start_pos < len; ...)`
loop; the counter is the number of remaining start offsets `len - sp`. -/
def nfa_search_loop (prog : nfa_program_t) (str : List Nat) (len : Nat) :
    Nat → Nat → nfa_match_t
  | 0, _ => ⟨0, 0, false⟩
  | fuel + 1, sp =>
    match nfa_search_at prog str len sp with
    | some m => m
    | none => nfa_search_loop prog str len fuel (sp + 1)

/-- lint.c:282-340 `nfa_search`. -/
def nfa_search (prog : nfa_program_t) (str : List Nat) (len : Nat) : nfa_match_t :=
  nfa_search_loop prog str len len 0

/-!  The capacity-unlimited compiler, modelled from the spec's capacity
clause ("a pattern compiled with more distinct states than the array
capacity must fail compilation cleanly, not silently truncate"): the same
compiler with the state array treated as unlimited, so its result is "the
construction the pattern requires".  It differs from the bounded compiler
only in `nfa_add_state_u` never failing; every other line mirrors
`nfa_compile` verbatim. -/

/-- A pattern byte the compile loop treats as a plain literal: none of
`\` (92), `.` (46), `[` (91), `*` (42), `$` (36), `^` (94), and not the
NUL terminator. -/
def PlainByte (c : Nat) : Prop :=
  c ≠ 92 ∧ c ≠ 46 ∧ c ≠ 91 ∧ c ≠ 42 ∧ c ≠ 36 ∧ c ≠ 94 ∧ c ≠ 0

instance (c : Nat) : Decidable (PlainByte c) := by
  unfold PlainByte; infer_instance

/-- Case-fold a whole byte string the way the engine folds single bytes. -/
def spec_fold (cs : Bool) (l : List Nat) : List Nat :=
  l.map fun b => nfa_normalize b cs

/-- Modelled from the spec: `pat` occurs at the very head of `l`. -/
def spec_startsWith : List Nat → List Nat → Bool
  | [], _ => true
  | _ :: _, [] => false
  | a :: pa, b :: lb => a == b && spec_startsWith pa lb

/-- Modelled from the spec: leftmost occurrence of `pat` in `line` at or
after offset `i`, scanning the offsets `i < line.length` (counter of
remaining offsets, as in the search loop). -/
def spec_find_from (pat line : List Nat) : Nat → Nat → Option Nat
  | 0, _ => none
  | fuel + 1, i =>
    if spec_startsWith pat (line.drop i) then some i
    else spec_find_from pat line fuel (i + 1)

/-- Modelled from the spec: the `Match` a plain leftmost substring search
would report. -/
def spec_substring_result (pat line : List Nat) : nfa_match_t :=
  match spec_find_from pat line line.length 0 with
  | some i => ⟨i, i + pat.length, true⟩
  | none => ⟨0, 0, false⟩

/-!  The straight-line programs `nfa_compile` builds for plain-literal
patterns (used to settle the substring-search claim). -/

/-- State `i` of the finished literal chain: literal `ns[i]`, successor `i+1`. -/
def chain_state (ns : List Nat) (i : Nat) : nfa_state_t :=
  ⟨.st_char, ns.getD i 0, fun _ => false, Int.ofNat (i + 1), -1⟩

/-- The finished program for the (already case-folded) literal list `ns`:
a chain of literal states followed by the match state, entry at state 0. -/
def chain_prog (cs : Bool) (ns : List Nat) : nfa_program_t :=
  ⟨0, ns.length + 1, cs,
   (List.range ns.length).map (chain_state ns) ++
     [⟨.st_match, 0, fun _ => false, -1, -1⟩]⟩

/-- State `i` of the chain while the compile loop is still running: the
most recently added state dangles (`out = -1`). -/
def partial_state (ns : List Nat) (i : Nat) : nfa_state_t :=
  ⟨.st_char, ns.getD i 0, fun _ => false,
   if i + 1 = ns.length then -1 else Int.ofNat (i + 1), -1⟩

/-- The program mid-loop, after the literals `ns` have been consumed. -/
def partial_prog (cs : Bool) (ns : List Nat) : nfa_program_t :=
  ⟨0, ns.length, cs, (List.range ns.length).map (partial_state ns)⟩

/-!  Reachability and edge-validity notions for the invariant claims. -/

/-- Graph reachability along resolved successor edges: the `out` edge of
every state, plus the `out1` edge of Split states; a negative (unset)
index is not an edge. -/
inductive nfa_reach (prog : nfa_program_t) : Int → Int → Prop where
  | refl (s : Int) : nfa_reach prog s s
  | out {s t : Int} (h : nfa_reach prog s t) (ht : 0 ≤ t)
      (hu : 0 ≤ (nth_state prog t.toNat).out) :
      nfa_reach prog s (nth_state prog t.toNat).out
  | out1 {s t : Int} (h : nfa_reach prog s t) (ht : 0 ≤ t)
      (hsp : (nth_state prog t.toNat).type = .st_split)
      (hu : 0 ≤ (nth_state prog t.toNat).out1) :
      nfa_reach prog s (nth_state prog t.toNat).out1

/-- The edge bounds a fully-linked state must satisfy (`out1` only matters
for Split states; the Match state has no successors). -/
def state_ok (n : Nat) (st : nfa_state_t) : Prop :=
  match st.type with
  | .st_match => True
  | .st_split =>
    0 ≤ st.out ∧ st.out < (n : Int) ∧ 0 ≤ st.out1 ∧ st.out1 < (n : Int)
  | _ => 0 ≤ st.out ∧ st.out < (n : Int)

/-- As `state_ok`, but additionally recording that the Match state keeps
its sentinel successor, so that no edge leaves it. -/
def state_closed (n : Nat) (st : nfa_state_t) : Prop :=
  match st.type with
  | .st_match => st.out = -1
  | .st_split =>
    0 ≤ st.out ∧ st.out < (n : Int) ∧ 0 ≤ st.out1 ∧ st.out1 < (n : Int)
  | _ => 0 ≤ st.out ∧ st.out < (n : Int)

/-- What holds of the dangling state `last` while the compile loop runs:
if it is a Split, its loop edge is already resolved and only `out1`
dangles (so `nfa_patch` will fill `out1`). -/
def last_ok (prog : nfa_program_t) (last : Int) : Prop :=
  (nth_state prog last.toNat).type = .st_split →
    0 ≤ (nth_state prog last.toNat).out ∧
    (nth_state prog last.toNat).out < (prog.state_count : Int) ∧
    (nth_state prog last.toNat).out1 = -1

/-- The compile-loop invariant: counts in sync and capped, no Match state
emitted yet, and either nothing emitted at all (`start = last = -1`) or a
fragment whose states are all fully linked except the dangling `last`. -/
def loop_inv (prog : nfa_program_t) (start last : Int) : Prop :=
  prog.state_count = prog.states.length ∧
  prog.state_count ≤ NFA_MAX_STATES ∧
  (∀ i : Nat, i < prog.state_count → (nth_state prog i).type ≠ .st_match) ∧
  ((start = -1 ∧ last = -1 ∧ prog.states = []) ∨
   (0 ≤ start ∧ start < (prog.state_count : Int) ∧
    0 ≤ last ∧ last < (prog.state_count : Int) ∧
    (∀ i : Nat, i < prog.state_count → i ≠ last.toNat →
      state_ok prog.state_count (nth_state prog i)) ∧
    last_ok prog last))

/-- What `nfa_compile` guarantees of a successfully compiled program:
either every state is closed, or (for the degenerate unit-less patterns)
the start state is the End-anchor or Match state and reaches nothing else. -/
def compiled_ok (prog : nfa_program_t) : Prop :=
  prog.state_count = prog.states.length ∧
  prog.state_count ≤ NFA_MAX_STATES ∧
  0 ≤ prog.start_state ∧ prog.start_state < (prog.state_count : Int) ∧
  ((∀ i : Nat, i < prog.state_count → state_closed prog.state_count (nth_state prog i)) ∨
   (∃ m : Nat, m < prog.state_count ∧ (nth_state prog m).type = .st_match ∧
      (nth_state prog m).out = -1 ∧
      (prog.start_state = Int.ofNat m ∨
       ∃ e : Nat, e < prog.state_count ∧ prog.start_state = Int.ofNat e ∧
         (nth_state prog e).type = .st_eol ∧ (nth_state prog e).out = Int.ofNat m)))

/-!  Concrete programs shared by several witnesses. -/

/-- The compiled program for the one-byte pattern `a`. -/
def prog_a : nfa_program_t := (nfa_compile [97] true).getD default

/-- The compiled program for the pattern `TODO`. -/
def prog_todo : nfa_program_t := (nfa_compile [84, 79, 68, 79] true).getD default

/-- The compiled program for the pattern `^$`. -/
def prog_caret_dollar : nfa_program_t := (nfa_compile [94, 36] true).getD default

/-- The compiled program for the pattern `[^x]`. -/
def prog_neg_x : nfa_program_t := (nfa_compile [91, 94, 120, 93] true).getD default

/-!  Theorems.  First the concrete end-to-end evaluations. -/

/-- C1: the code does NOT implement zero-or-more for a starred unit that is
preceded by an earlier consuming unit — the edge entering the starred unit
was already patched to the consuming state before the `*` is seen, so one
occurrence is mandatory.  Evaluating the compiled `gets[ \t]*(` program on
the line `    gets(buf);` (which has zero blanks between `gets` and `(`)
returns `found = false`, where the claim requires `Match{4, 9, true}`. -/
theorem c1_gets_star_failing_input :
    (nfa_compile [103, 101, 116, 115, 91, 32, 9, 93, 42, 40] true).map
      (fun p => nfa_search p [32, 32, 32, 32, 103, 101, 116, 115, 40, 98, 117, 102, 41, 59] 14) =
      some ⟨0, 0, false⟩ := rfl

/-- C3 counterexample: the program compiled from `a*` (case-sensitive)
reports `found = false` on the empty line, not `found = true` — the outer
search loop runs only for `start_pos < len` and a length-0 line has no
start offsets at all. -/
theorem c3_empty_line_counterexample :
    (nfa_compile [97, 42] true).map (fun p => (nfa_search p [] 0).found) =
      some false := rfl

/-- C3 amended: on the empty line the search of the compiled `a*` returns
the zero-initialised result `{start = 0, end = 0, found = false}`. -/
theorem c3_empty_line_amended :
    (nfa_compile [97, 42] true).map (fun p => nfa_search p [] 0) =
      some ⟨0, 0, false⟩ := rfl

/-- C4 counterexample: the program compiled from `[a-z]*` (case-insensitive)
on `ABC123` reports `end = 0` — an empty span, not a non-empty span
covering `ABC`: the initial epsilon closure already contains the Match
state, so the zero-length check fires at offset 0. -/
theorem c4_abc123_counterexample :
    (nfa_compile [91, 97, 45, 122, 93, 42] false).map
      (fun p => (nfa_search p [65, 66, 67, 49, 50, 51] 6).«end») = some 0 := rfl

/-- C4 amended: `[a-z]*` (case-insensitive) on `ABC123` returns
`Match{start = 0, end = 0, found = true}`, the zero-length match the
shortest-match policy produces at the first start offset. -/
theorem c4_abc123_amended :
    (nfa_compile [91, 97, 45, 122, 93, 42] false).map
      (fun p => nfa_search p [65, 66, 67, 49, 50, 51] 6) =
      some ⟨0, 0, true⟩ := rfl

/-!  Small evaluation facts about the empty active list. -/

theorem nfa_has_match_nil (prog : nfa_program_t) : nfa_has_match prog [] = false := rfl

theorem nfa_search_inner_nil (prog : nfa_program_t) (str : List Nat) (len sp : Nat) :
    ∀ fuel pos, nfa_search_inner prog str len sp fuel pos [] = none := by
  intro fuel pos
  cases fuel with
  | zero => rfl
  | succ n => rfl

/-- If no start offset can produce a match, the outer loop returns the
zero-initialised result. -/
theorem nfa_search_loop_none (prog : nfa_program_t) (str : List Nat) (len : Nat)
    (h : ∀ sp, nfa_search_at prog str len sp = none) :
    ∀ fuel sp, nfa_search_loop prog str len fuel sp = ⟨0, 0, false⟩ := by
  intro fuel
  induction fuel with
  | zero => intro sp; rfl
  | succ n ih =>
    intro sp
    unfold nfa_search_loop
    rw [h sp]
    exact ih (sp + 1)

/-- With the pattern `^$` the compiled start state is the End-anchor state
(the Begin-anchor state got orphaned by the final `start` overwrite), and
the initial closure is always computed with `at_eol = false`, so no start
offset ever yields an active state. -/
theorem c2_caret_dollar_at (str : List Nat) (len sp : Nat) :
    nfa_search_at prog_caret_dollar str len sp = none := by
  have hcur : nfa_add_epsilon prog_caret_dollar nfa_fuel [] prog_caret_dollar.start_state
      (sp == 0) false = [] := rfl
  simp [nfa_search_at, hcur, nfa_has_match_nil, nfa_search_inner_nil]

/-- C2: the program compiled from `^$` (case-sensitive) never reports a
match on any line whatsoever.  On every line of length > 0 it returns
`found = false` exactly as the claim states, but on the empty line
(len = 0) it also returns `found = false` with `start = end = 0`, because
the outer search loop only visits offsets `start_pos < len` and because the
compiled start state is the End-anchor state whose initial closure is
computed with `at_eol = false`.  The claim's `found = true` on the empty
line is refuted by instantiating `str := []`, `len := 0`. -/
theorem c2_caret_dollar_never_matches (str : List Nat) (len : Nat) :
    (nfa_compile [94, 36] true).map (fun p => nfa_search p str len) =
      some ⟨0, 0, false⟩ := by
  have h : nfa_compile [94, 36] true = some prog_caret_dollar := rfl
  rw [h]
  show some (nfa_search prog_caret_dollar str len) = some ⟨0, 0, false⟩
  exact congrArg some (nfa_search_loop_none _ _ _ (c2_caret_dollar_at str len) len 0)

/-!  Capacity of the active-state lists (claim C9). -/

theorem nfa_list_add_full (l : List Int) (s : Int) (h : NFA_MAX_LIST ≤ l.length) :
    nfa_list_add l s = l := by
  unfold nfa_list_add
  rw [if_neg (Nat.not_lt.mpr h)]

theorem nfa_list_add_bound (l : List Int) (s : Int) (h : l.length ≤ NFA_MAX_LIST) :
    (nfa_list_add l s).length ≤ NFA_MAX_LIST := by
  unfold nfa_list_add
  split
  · simp only [List.length_append, List.length_cons, List.length_nil]
    omega
  · exact h

theorem nfa_add_epsilon_bound (prog : nfa_program_t) :
    ∀ (fuel : Nat) (l : List Int) (s : Int) (b e : Bool),
      l.length ≤ NFA_MAX_LIST →
      (nfa_add_epsilon prog fuel l s b e).length ≤ NFA_MAX_LIST := by
  intro fuel
  induction fuel with
  | zero => intro l s b e h; exact h
  | succ n ih =>
    intro l s b e h
    unfold nfa_add_epsilon
    split
    · exact h
    · split
      · apply ih
        split
        · exact ih _ _ _ _ h
        · exact h
      · split
        · exact ih _ _ _ _ h
        · exact h
      · split
        · exact ih _ _ _ _ h
        · exact h
      · exact nfa_list_add_bound _ _ h

theorem foldl_length_bound (f : List Int → Int → List Int)
    (hf : ∀ acc s, acc.length ≤ NFA_MAX_LIST → (f acc s).length ≤ NFA_MAX_LIST) :
    ∀ (cur : List Int) (acc : List Int), acc.length ≤ NFA_MAX_LIST →
      (cur.foldl f acc).length ≤ NFA_MAX_LIST := by
  intro cur
  induction cur with
  | nil => intro acc h; exact h
  | cons x xs ih => intro acc h; exact ih (f acc x) (hf acc x h)

theorem nfa_step_bound (prog : nfa_program_t) (cur : List Int) (byte : Nat) :
    (nfa_step prog cur byte).length ≤ NFA_MAX_LIST := by
  unfold nfa_step
  apply foldl_length_bound
  · intro acc s h
    split
    · split
      · exact nfa_list_add_bound _ _ h
      · exact h
    · exact nfa_list_add_bound _ _ h
    · split
      · exact nfa_list_add_bound _ _ h
      · exact h
    · exact h
  · simp

theorem nfa_closure_bound (prog : nfa_program_t) (l : List Int) (at_eol : Bool) :
    (nfa_closure prog l at_eol).length ≤ NFA_MAX_LIST := by
  unfold nfa_closure
  apply foldl_length_bound
  · intro acc s h
    exact nfa_add_epsilon_bound prog _ _ _ _ _ h
  · simp

/-- C9: the active-state lists can never exceed the fixed capacity
`NFA_MAX_LIST` (1024).  `nfa_list_add` silently discards the state being
added once the list is full, and every list-producing operation of the
search (`nfa_add_epsilon`, `nfa_step`, the epsilon-closure pass) keeps the
length within the capacity, so `nfa_search` (a total function here, as in
the C code it always runs to completion and returns a `Match` value)
never writes past the list. -/
theorem c9_list_capacity_soft_degradation :
    (∀ (l : List Int) (s : Int), NFA_MAX_LIST ≤ l.length → nfa_list_add l s = l) ∧
    (∀ (prog : nfa_program_t) (fuel : Nat) (l : List Int) (s : Int) (b e : Bool),
        l.length ≤ NFA_MAX_LIST →
        (nfa_add_epsilon prog fuel l s b e).length ≤ NFA_MAX_LIST) ∧
    (∀ (prog : nfa_program_t) (cur : List Int) (byte : Nat),
        (nfa_step prog cur byte).length ≤ NFA_MAX_LIST) ∧
    (∀ (prog : nfa_program_t) (l : List Int) (at_eol : Bool),
        (nfa_closure prog l at_eol).length ≤ NFA_MAX_LIST) :=
  ⟨nfa_list_add_full, nfa_add_epsilon_bound, nfa_step_bound, nfa_closure_bound⟩

/-- Witness for C9 at a concrete full list: adding to a list already at
capacity leaves it unchanged. -/
theorem c9_witness :
    NFA_MAX_LIST ≤ (List.replicate NFA_MAX_LIST (0 : Int)).length ∧
    nfa_list_add (List.replicate NFA_MAX_LIST (0 : Int)) 5 =
      List.replicate NFA_MAX_LIST (0 : Int) :=
  ⟨by simp, c9_list_capacity_soft_degradation.1 _ 5 (by simp)⟩

/-!  Bounds on the offsets the search reports (claim C10). -/

theorem nfa_search_inner_bounds (prog : nfa_program_t) (str : List Nat) (len sp : Nat) :
    ∀ (fuel pos : Nat) (cur : List Int) (m : nfa_match_t),
      fuel + pos ≤ len → sp ≤ pos →
      nfa_search_inner prog str len sp fuel pos cur = some m →
      m.start = sp ∧ sp ≤ m.«end» ∧ m.«end» ≤ len ∧ m.found = true := by
  intro fuel
  induction fuel with
  | zero =>
    intro pos cur m h1 h2 heq
    unfold nfa_search_inner at heq
    split at heq
    · split at heq
      · cases heq
        exact ⟨rfl, show sp ≤ len by omega, show len ≤ len from le_refl _, rfl⟩
      · cases heq
    · cases heq
  | succ n ih =>
    intro pos cur m h1 h2 heq
    simp only [nfa_search_inner] at heq
    split at heq
    · cases heq
      exact ⟨rfl, show sp ≤ pos + 1 by omega, show pos + 1 ≤ len by omega, rfl⟩
    · split at heq
      · cases heq
      · exact ih (pos + 1) _ m (by omega) (by omega) heq

theorem nfa_search_at_bounds (prog : nfa_program_t) (str : List Nat) (len sp : Nat)
    (m : nfa_match_t) (hsp : sp < len)
    (heq : nfa_search_at prog str len sp = some m) :
    m.start = sp ∧ sp ≤ m.«end» ∧ m.«end» ≤ len ∧ m.found = true := by
  simp only [nfa_search_at] at heq
  split at heq
  · cases heq
    exact ⟨rfl, le_refl _, show sp ≤ len by omega, rfl⟩
  · exact nfa_search_inner_bounds prog str len sp (len - sp) sp _ m (by omega) (le_refl _) heq

theorem nfa_search_loop_bounds (prog : nfa_program_t) (str : List Nat) (len : Nat) :
    ∀ (fuel sp : Nat), fuel + sp ≤ len →
      (nfa_search_loop prog str len fuel sp).found = true →
      (nfa_search_loop prog str len fuel sp).start < len ∧
      (nfa_search_loop prog str len fuel sp).start ≤ (nfa_search_loop prog str len fuel sp).«end» ∧
      (nfa_search_loop prog str len fuel sp).«end» ≤ len := by
  intro fuel
  induction fuel with
  | zero =>
    intro sp _ hf
    cases hf
  | succ n ih =>
    intro sp h hf
    unfold nfa_search_loop at hf ⊢
    cases heq : nfa_search_at prog str len sp with
    | some m =>
      obtain ⟨h1, h2, h3, _⟩ := nfa_search_at_bounds prog str len sp m (by omega) heq
      show m.start < len ∧ m.start ≤ m.«end» ∧ m.«end» ≤ len
      exact ⟨by omega, by omega, h3⟩
    | none =>
      rw [heq] at hf
      show (nfa_search_loop prog str len n (sp + 1)).start < len ∧
        (nfa_search_loop prog str len n (sp + 1)).start ≤
          (nfa_search_loop prog str len n (sp + 1)).«end» ∧
        (nfa_search_loop prog str len n (sp + 1)).«end» ≤ len
      exact ih (sp + 1) (by omega) hf

/-- C10: whenever the search over a successfully compiled program reports
`found = true`, the offsets satisfy `start < len`, `start ≤ end` and
`end ≤ len`; in particular no match is ever reported on a line of length 0
and no reported span leaves the line. -/
theorem c10_reported_offsets_in_range (pat : List Nat) (cs : Bool)
    (prog : nfa_program_t) (str : List Nat) (len : Nat)
    (hc : nfa_compile pat cs = some prog)
    (hf : (nfa_search prog str len).found = true) :
    (nfa_search prog str len).start < len ∧
    (nfa_search prog str len).start ≤ (nfa_search prog str len).«end» ∧
    (nfa_search prog str len).«end» ≤ len := by
  unfold nfa_search at hf ⊢
  exact nfa_search_loop_bounds prog str len len 0 (by omega) hf

/-- Witness for C10: the `TODO` program on `// TODO: fix this` reports
`Match{3, 7, true}`, and the theorem yields `3 < 17 ∧ 3 ≤ 7 ∧ 7 ≤ 17`. -/
theorem c10_witness :
    nfa_compile [84, 79, 68, 79] true = some prog_todo ∧
    (nfa_search prog_todo [47, 47, 32, 84, 79, 68, 79, 58, 32, 102, 105, 120, 32, 116, 104, 105, 115] 17).found = true ∧
    ((nfa_search prog_todo [47, 47, 32, 84, 79, 68, 79, 58, 32, 102, 105, 120, 32, 116, 104, 105, 115] 17).start < 17 ∧
     (nfa_search prog_todo [47, 47, 32, 84, 79, 68, 79, 58, 32, 102, 105, 120, 32, 116, 104, 105, 115] 17).start ≤
       (nfa_search prog_todo [47, 47, 32, 84, 79, 68, 79, 58, 32, 102, 105, 120, 32, 116, 104, 105, 115] 17).«end» ∧
     (nfa_search prog_todo [47, 47, 32, 84, 79, 68, 79, 58, 32, 102, 105, 120, 32, 116, 104, 105, 115] 17).«end» ≤ 17) :=
  ⟨rfl, rfl,
   c10_reported_offsets_in_range [84, 79, 68, 79] true prog_todo
     [47, 47, 32, 84, 79, 68, 79, 58, 32, 102, 105, 120, 32, 116, 104, 105, 115] 17 rfl rfl⟩

/-!  The negated character class and the newline byte (claim C6). -/

theorem nfa_closure_nil (prog : nfa_program_t) (e : Bool) :
    nfa_closure prog [] e = [] := rfl

/-- The compiled `[^x]` bitmap rejects the newline byte (it was re-excluded
by the negation fixup, not by the user's class). -/
theorem c6_cls_newline_false :
    nfa_cls_has (nth_state prog_neg_x 0).cls 10 = false := rfl

theorem c6_step_true (b : Nat)
    (h : nfa_cls_has (nth_state prog_neg_x 0).cls b = true) :
    nfa_step prog_neg_x [Int.ofNat 0] b = [Int.ofNat 1] := by
  have hstep : nfa_step prog_neg_x [Int.ofNat 0] b =
      if nfa_cls_has (nth_state prog_neg_x 0).cls b = true then [Int.ofNat 1] else [] := rfl
  rw [hstep, if_pos h]

theorem c6_step_false (b : Nat)
    (h : nfa_cls_has (nth_state prog_neg_x 0).cls b = false) :
    nfa_step prog_neg_x [Int.ofNat 0] b = [] := by
  have hstep : nfa_step prog_neg_x [Int.ofNat 0] b =
      if nfa_cls_has (nth_state prog_neg_x 0).cls b = true then [Int.ofNat 1] else [] := rfl
  rw [hstep, h]
  simp

theorem c6_closure_one (e : Bool) :
    nfa_closure prog_neg_x [Int.ofNat 1] e = [Int.ofNat 1] := rfl

theorem c6_has_match_one : nfa_has_match prog_neg_x [Int.ofNat 1] = true := rfl

/-- From the single class state, the inner loop either accepts the very
byte at `pos` (and that byte passes the negated-class test, so it is not a
newline) or dies without recursing. -/
theorem c6_inner (str : List Nat) (len sp : Nat) :
    ∀ (fuel pos : Nat) (m : nfa_match_t),
      nfa_search_inner prog_neg_x str len sp fuel pos [Int.ofNat 0] = some m →
      m.start = sp ∧ str.getD pos 0 ≠ 10 := by
  intro fuel pos m heq
  cases fuel with
  | zero =>
    rw [show nfa_search_inner prog_neg_x str len sp 0 pos [Int.ofNat 0] = none from rfl] at heq
    cases heq
  | succ n =>
    have hnorm : nfa_normalize (str.getD pos 0) prog_neg_x.case_sensitive = str.getD pos 0 := rfl
    simp only [nfa_search_inner, hnorm] at heq
    cases hcls : nfa_cls_has (nth_state prog_neg_x 0).cls (str.getD pos 0) with
    | false =>
      rw [c6_step_false _ hcls, nfa_closure_nil, nfa_has_match_nil] at heq
      simp at heq
    | true =>
      rw [c6_step_true _ hcls, c6_closure_one, c6_has_match_one, if_pos rfl] at heq
      cases heq
      refine ⟨rfl, fun h10 => ?_⟩
      rw [h10, c6_cls_newline_false] at hcls
      cases hcls

theorem c6_at (str : List Nat) (len sp : Nat) (m : nfa_match_t)
    (heq : nfa_search_at prog_neg_x str len sp = some m) :
    m.start = sp ∧ str.getD sp 0 ≠ 10 := by
  have hcur : nfa_add_epsilon prog_neg_x nfa_fuel [] prog_neg_x.start_state (sp == 0) false =
      [Int.ofNat 0] := rfl
  have hnm : nfa_has_match prog_neg_x [Int.ofNat 0] = false := rfl
  simp only [nfa_search_at, hcur, hnm] at heq
  simp only [Bool.false_eq_true, if_false] at heq
  exact c6_inner str len sp (len - sp) sp m heq

theorem c6_loop (str : List Nat) (len : Nat) :
    ∀ (fuel sp : Nat),
      (nfa_search_loop prog_neg_x str len fuel sp).found = true →
      str.getD (nfa_search_loop prog_neg_x str len fuel sp).start 0 ≠ 10 := by
  intro fuel
  induction fuel with
  | zero => intro sp hf; cases hf
  | succ n ih =>
    intro sp hf
    unfold nfa_search_loop at hf ⊢
    cases heq : nfa_search_at prog_neg_x str len sp with
    | some m =>
      obtain ⟨h1, h2⟩ := c6_at str len sp m heq
      show str.getD m.start 0 ≠ 10
      rw [h1]
      exact h2
    | none =>
      rw [heq] at hf
      show str.getD (nfa_search_loop prog_neg_x str len n (sp + 1)).start 0 ≠ 10
      exact ih (sp + 1) hf

/-- C6: the negation fixup removes the newline byte from every negated
class bitmap, and consequently the program compiled from `[^x]`
(case-sensitive) never reports a match whose matched byte (the byte at the
reported start offset, the span always having length 1) is the newline
byte 10. -/
theorem c6_negated_class_never_matches_newline :
    (∀ cls : Nat → Bool, nfa_class_negate cls 10 = false) ∧
    (∀ (str : List Nat) (r : nfa_match_t),
        (nfa_compile [91, 94, 120, 93] true).map (fun p => nfa_search p str str.length) =
          some r →
        r.found = true → str.getD r.start 0 ≠ 10) := by
  constructor
  · intro cls
    unfold nfa_class_negate
    simp
  · intro str r heq hf
    have h : nfa_compile [91, 94, 120, 93] true = some prog_neg_x := rfl
    rw [h] at heq
    have heq2 : nfa_search prog_neg_x str str.length = r := by
      have := heq
      simpa using this
    rw [← heq2] at hf ⊢
    unfold nfa_search at hf ⊢
    exact c6_loop str str.length str.length 0 hf

/-- Witness for C6 on the line `\na`: the reported match is `{1, 2, true}`
and the matched byte 97 is not the newline. -/
theorem c6_witness :
    ((nfa_compile [91, 94, 120, 93] true).map
        (fun p => nfa_search p [10, 97] [10, 97].length) = some ⟨1, 2, true⟩) ∧
    (⟨1, 2, true⟩ : nfa_match_t).found = true ∧
    [10, 97].getD (⟨1, 2, true⟩ : nfa_match_t).start 0 ≠ 10 :=
  ⟨rfl, rfl,
   c6_negated_class_never_matches_newline.2 [10, 97] ⟨1, 2, true⟩ rfl rfl⟩

/-!  The compiled form of plain-literal patterns (claims C5 and C7). -/

theorem getD_append_lt (l : List Nat) (a : Nat) (i : Nat) (h : i < l.length) :
    (l ++ [a]).getD i 0 = l.getD i 0 := by
  rw [List.getD_eq_getElem _ _ (by simp; omega), List.getD_eq_getElem _ _ h]
  exact List.getElem_append_left h

theorem getD_append_len (l : List Nat) (a : Nat) :
    (l ++ [a]).getD l.length 0 = a := by
  rw [List.getD_eq_getElem _ _ (by simp)]
  simp

theorem nth_partial (cs : Bool) (ns : List Nat) (i : Nat) (h : i < ns.length) :
    nth_state (partial_prog cs ns) i = partial_state ns i := by
  unfold nth_state partial_prog
  rw [List.getD_eq_getElem _ _ (by simpa using h)]
  simp

theorem nth_chain_lt (cs : Bool) (ns : List Nat) (i : Nat) (h : i < ns.length) :
    nth_state (chain_prog cs ns) i = chain_state ns i := by
  unfold nth_state chain_prog
  rw [List.getD_eq_getElem _ _ (by simp; omega)]
  rw [List.getElem_append_left (by simpa using h)]
  simp

theorem nth_chain_match (cs : Bool) (ns : List Nat) :
    nth_state (chain_prog cs ns) ns.length =
      ⟨.st_match, 0, fun _ => false, -1, -1⟩ := by
  unfold nth_state chain_prog
  rw [List.getD_eq_getElem _ _ (by simp)]
  rw [List.getElem_append_right (by simp)]
  simp

/-- Linking one more literal into the dangling chain gives the extended
chain: the patch writes the successor of the previously dangling state. -/
theorem partial_extend (cs : Bool) (ns : List Nat) (c' : Nat) (hns : ns ≠ []) :
    nfa_patch ⟨0, ns.length + 1, cs,
        (partial_prog cs ns).states ++ [⟨.st_char, c', fun _ => false, -1, -1⟩]⟩
      (Int.ofNat (ns.length - 1)) (Int.ofNat ns.length) =
    partial_prog cs (ns ++ [c']) := by
  have hlen : 0 < ns.length := List.length_pos.mpr hns
  have hst : nth_state (⟨0, ns.length + 1, cs,
      (partial_prog cs ns).states ++ [(⟨.st_char, c', fun _ => false, -1, -1⟩ : nfa_state_t)]⟩ : nfa_program_t)
      (Int.ofNat (ns.length - 1)).toNat = partial_state ns (ns.length - 1) := by
    show ((partial_prog cs ns).states ++
        [(⟨.st_char, c', fun _ => false, -1, -1⟩ : nfa_state_t)]).getD (ns.length - 1) default
      = partial_state ns (ns.length - 1)
    rw [List.getD_eq_getElem _ _
      (by simp only [partial_prog, List.length_append, List.length_map,
            List.length_range, List.length_cons, List.length_nil]; omega)]
    rw [List.getElem_append_left
      (by simp only [partial_prog, List.length_map, List.length_range]; omega)]
    simp [partial_prog]
  simp only [nfa_patch, hst]
  rw [if_neg (show ¬(Int.ofNat (ns.length - 1) < 0) from not_lt.mpr (Int.ofNat_nonneg _))]
  rw [if_neg (by simp [partial_state])]
  have hstates : ((partial_prog cs ns).states ++
        [(⟨.st_char, c', fun _ => false, -1, -1⟩ : nfa_state_t)]).set
          (Int.ofNat (ns.length - 1)).toNat
          ({ partial_state ns (ns.length - 1) with out := Int.ofNat ns.length }) =
      (partial_prog cs (ns ++ [c'])).states := by
    rw [show (Int.ofNat (ns.length - 1)).toNat = ns.length - 1 from rfl]
    have hlA : ((partial_prog cs ns).states ++
        [(⟨.st_char, c', fun _ => false, -1, -1⟩ : nfa_state_t)]).length = ns.length + 1 := by
      simp [partial_prog]
    apply List.ext_getElem
    · simp only [List.length_set, hlA]
      simp [partial_prog]
    · intro i h1 h2
      have hi : i < ns.length + 1 := by
        rw [List.length_set, hlA] at h1
        exact h1
      have hrhs : (partial_prog cs (ns ++ [c'])).states[i] = partial_state (ns ++ [c']) i := by
        simp [partial_prog]
      rw [hrhs, List.getElem_set]
      by_cases he : ns.length - 1 = i
      · rw [if_pos he]
        show (⟨.st_char, ns.getD (ns.length - 1) 0, fun _ => false,
            Int.ofNat ns.length, -1⟩ : nfa_state_t) = partial_state (ns ++ [c']) i
        rw [← he]
        unfold partial_state
        rw [getD_append_lt _ _ _ (by omega)]
        rw [show (ns ++ [c']).length = ns.length + 1 by simp]
        have hsub : ns.length - 1 + 1 = ns.length := by omega
        rw [hsub, if_neg (by omega)]
      · rw [if_neg he]
        by_cases hlt : i < ns.length
        · rw [List.getElem_append_left (by simpa [partial_prog] using hlt)]
          simp only [partial_prog, List.getElem_map, List.getElem_range]
          unfold partial_state
          rw [getD_append_lt _ _ _ hlt]
          rw [show (ns ++ [c']).length = ns.length + 1 by simp]
          rw [if_neg (by omega), if_neg (by omega)]
        · have hieq : i = ns.length := by omega
          subst hieq
          rw [List.getElem_append_right (by simp [partial_prog])]
          simp only [show (partial_prog cs ns).states.length = ns.length from by
              simp [partial_prog], Nat.sub_self]
          show (⟨.st_char, c', fun _ => false, -1, -1⟩ : nfa_state_t) =
            partial_state (ns ++ [c']) ns.length
          unfold partial_state
          rw [getD_append_len]
          rw [show (ns ++ [c']).length = ns.length + 1 by simp]
          rw [if_pos rfl]
  rw [hstates]
  show (⟨0, ns.length + 1, cs, (partial_prog cs (ns ++ [c'])).states⟩ : nfa_program_t) =
    partial_prog cs (ns ++ [c'])
  unfold partial_prog
  simp

/-- The compile loop consumes a plain-literal suffix one literal per
iteration, extending the dangling chain, while capacity remains. -/
theorem compile_loop_plain (cs : Bool) :
    ∀ (rest ns : List Nat) (fuel : Nat),
      (∀ c ∈ rest, PlainByte c) → ns ≠ [] → rest.length < fuel →
      ns.length + rest.length ≤ NFA_MAX_STATES →
      nfa_compile_loop cs fuel (partial_prog cs ns) (Int.ofNat 0)
          (Int.ofNat (ns.length - 1)) rest =
        some (partial_prog cs (ns ++ spec_fold cs rest), [], Int.ofNat 0,
              Int.ofNat ((ns ++ spec_fold cs rest).length - 1)) := by
  intro rest
  induction rest with
  | nil =>
    intro ns fuel _ hns hfuel hcap
    cases fuel with
    | zero => omega
    | succ f => simp [nfa_compile_loop, spec_fold]
  | cons c rest ih =>
    intro ns fuel hplain hns hfuel hcap
    cases fuel with
    | zero => omega
    | succ f =>
      obtain ⟨hc92, hc46, hc91, hc42, hc36, hc94, hc0⟩ := hplain c (by simp)
      unfold nfa_compile_loop
      rw [if_neg hc36, if_neg hc92, if_neg hc46, if_neg hc91, if_neg hc42]
      have hadd : nfa_add_state (partial_prog cs ns) .st_char (nfa_normalize c cs) (-1) (-1) =
          some (⟨0, ns.length + 1, cs, (partial_prog cs ns).states ++
            [⟨.st_char, nfa_normalize c cs, fun _ => false, -1, -1⟩]⟩, ns.length) := by
        unfold nfa_add_state
        rw [if_neg (by
          simp only [partial_prog, List.length_cons] at hcap ⊢
          omega)]
        rfl
      have hlink : nfa_link (⟨0, ns.length + 1, cs, (partial_prog cs ns).states ++
            [⟨.st_char, nfa_normalize c cs, fun _ => false, -1, -1⟩]⟩ : nfa_program_t)
            ns.length (Int.ofNat 0) (Int.ofNat (ns.length - 1)) =
          (partial_prog cs (ns ++ [nfa_normalize c cs]), Int.ofNat 0, Int.ofNat ns.length) := by
        unfold nfa_link
        rw [if_neg (by decide)]
        rw [partial_extend cs ns (nfa_normalize c cs) hns]
      have hplain' : ∀ b ∈ rest, PlainByte b := fun b hb => hplain b (by simp [hb])
      have hns' : ns ++ [nfa_normalize c cs] ≠ [] := by simp
      have hrec : nfa_compile_loop cs f (partial_prog cs (ns ++ [nfa_normalize c cs]))
            (Int.ofNat 0) (Int.ofNat ns.length) rest =
          some (partial_prog cs (ns ++ spec_fold cs (c :: rest)), [], Int.ofNat 0,
              Int.ofNat ((ns ++ spec_fold cs (c :: rest)).length - 1)) := by
        have hlast : (Int.ofNat ns.length) =
            Int.ofNat ((ns ++ [nfa_normalize c cs]).length - 1) := by simp
        rw [hlast, ih (ns ++ [nfa_normalize c cs]) f hplain' hns'
          (by simp at hfuel ⊢; omega) (by simp only [List.length_append,
            List.length_cons, List.length_nil] at hcap ⊢; omega)]
        have hfold : (ns ++ [nfa_normalize c cs]) ++ spec_fold cs rest =
            ns ++ spec_fold cs (c :: rest) := by
          simp [spec_fold]
        rw [hfold]
      split
      · rename_i heq
        rw [hadd] at heq
        cases heq
      · rename_i prog1 s heq
        rw [hadd] at heq
        cases heq
        rw [hlink]
        cases rest with
        | nil => exact hrec
        | cons c2 rest2 =>
          obtain ⟨_, _, _, hb42, _, _, _⟩ := hplain c2 (by simp)
          show (match c2 :: rest2 with
            | 42 :: rest2 =>
              match nfa_star (partial_prog cs (ns ++ [nfa_normalize c cs])) ns.length
                  (Int.ofNat 0) (Int.ofNat ns.length) with
              | none => none
              | some (prog3, start3, last3) => nfa_compile_loop cs f prog3 start3 last3 rest2
            | _ => nfa_compile_loop cs f (partial_prog cs (ns ++ [nfa_normalize c cs]))
                (Int.ofNat 0) (Int.ofNat ns.length) (c2 :: rest2)) = _
          split
          · rename_i heq2
            exfalso
            apply hb42
            have h42 := (List.cons.injEq _ _ _ _).mp heq2
            exact h42.1
          · exact hrec

/-- Once the needed states exceed the capacity, the compile loop fails
cleanly with `none` (the C `return false`), never truncating. -/
theorem compile_loop_plain_fail (cs : Bool) :
    ∀ (rest ns : List Nat) (fuel : Nat),
      (∀ c ∈ rest, PlainByte c) → ns ≠ [] → rest.length < fuel →
      ns.length ≤ NFA_MAX_STATES → NFA_MAX_STATES < ns.length + rest.length →
      nfa_compile_loop cs fuel (partial_prog cs ns) (Int.ofNat 0)
          (Int.ofNat (ns.length - 1)) rest = none := by
  intro rest
  induction rest with
  | nil =>
    intro ns fuel _ _ _ hle hgt
    simp at hgt
    omega
  | cons c rest ih =>
    intro ns fuel hplain hns hfuel hle hgt
    cases fuel with
    | zero => omega
    | succ f =>
      obtain ⟨hc92, hc46, hc91, hc42, hc36, hc94, hc0⟩ := hplain c (by simp)
      unfold nfa_compile_loop
      rw [if_neg hc36, if_neg hc92, if_neg hc46, if_neg hc91, if_neg hc42]
      by_cases hfull : ns.length = NFA_MAX_STATES
      · have hadd : nfa_add_state (partial_prog cs ns) .st_char (nfa_normalize c cs)
            (-1) (-1) = none := by
          unfold nfa_add_state
          rw [if_pos (by simp only [partial_prog]; omega)]
        split
        · rfl
        · rename_i prog1 s heq
          rw [hadd] at heq
          cases heq
      · have hadd : nfa_add_state (partial_prog cs ns) .st_char (nfa_normalize c cs)
            (-1) (-1) = some (⟨0, ns.length + 1, cs, (partial_prog cs ns).states ++
              [⟨.st_char, nfa_normalize c cs, fun _ => false, -1, -1⟩]⟩, ns.length) := by
          unfold nfa_add_state
          rw [if_neg (by simp only [partial_prog]; omega)]
          rfl
        have hlink : nfa_link (⟨0, ns.length + 1, cs, (partial_prog cs ns).states ++
              [⟨.st_char, nfa_normalize c cs, fun _ => false, -1, -1⟩]⟩ : nfa_program_t)
              ns.length (Int.ofNat 0) (Int.ofNat (ns.length - 1)) =
            (partial_prog cs (ns ++ [nfa_normalize c cs]), Int.ofNat 0, Int.ofNat ns.length) := by
          unfold nfa_link
          rw [if_neg (by decide)]
          rw [partial_extend cs ns (nfa_normalize c cs) hns]
        have hplain' : ∀ b ∈ rest, PlainByte b := fun b hb => hplain b (by simp [hb])
        have hrec : nfa_compile_loop cs f (partial_prog cs (ns ++ [nfa_normalize c cs]))
              (Int.ofNat 0) (Int.ofNat ns.length) rest = none := by
          have hlast : (Int.ofNat ns.length) =
              Int.ofNat ((ns ++ [nfa_normalize c cs]).length - 1) := by simp
          rw [hlast]
          apply ih (ns ++ [nfa_normalize c cs]) f hplain' (by simp)
            (by simp at hfuel ⊢; omega)
            (by simp only [List.length_append, List.length_cons, List.length_nil]; omega)
            (by simp only [List.length_append, List.length_cons, List.length_nil]
                simp only [List.length_cons] at hgt
                omega)
        split
        · rename_i heq
          rw [hadd] at heq
        · rename_i prog1 s heq
          rw [hadd] at heq
          cases heq
          rw [hlink]
          cases rest with
          | nil =>
            exfalso
            simp only [List.length_cons, List.length_nil] at hgt
            omega
          | cons c2 rest2 =>
            obtain ⟨_, _, _, hb42, _, _, _⟩ := hplain c2 (by simp)
            show (match c2 :: rest2 with
              | 42 :: rest2 =>
                match nfa_star (partial_prog cs (ns ++ [nfa_normalize c cs])) ns.length
                    (Int.ofNat 0) (Int.ofNat ns.length) with
                | none => none
                | some (prog3, start3, last3) => nfa_compile_loop cs f prog3 start3 last3 rest2
              | _ => nfa_compile_loop cs f (partial_prog cs (ns ++ [nfa_normalize c cs]))
                  (Int.ofNat 0) (Int.ofNat ns.length) (c2 :: rest2)) = _
            split
            · rename_i heq2
              exfalso
              apply hb42
              exact ((List.cons.injEq _ _ _ _).mp heq2).1
            · exact hrec

/-- Patching the dangling chain into the freshly appended Match state
yields the finished chain program. -/
theorem chain_patch (cs : Bool) (ns : List Nat) (hns : ns ≠ []) :
    nfa_patch ⟨0, ns.length + 1, cs,
        (partial_prog cs ns).states ++ [⟨.st_match, 0, fun _ => false, -1, -1⟩]⟩
      (Int.ofNat (ns.length - 1)) (Int.ofNat ns.length) = chain_prog cs ns := by
  have hlen : 0 < ns.length := List.length_pos.mpr hns
  have hst : nth_state (⟨0, ns.length + 1, cs,
      (partial_prog cs ns).states ++ [(⟨.st_match, 0, fun _ => false, -1, -1⟩ : nfa_state_t)]⟩ : nfa_program_t)
      (Int.ofNat (ns.length - 1)).toNat = partial_state ns (ns.length - 1) := by
    show ((partial_prog cs ns).states ++
        [(⟨.st_match, 0, fun _ => false, -1, -1⟩ : nfa_state_t)]).getD (ns.length - 1) default
      = partial_state ns (ns.length - 1)
    rw [List.getD_eq_getElem _ _
      (by simp only [partial_prog, List.length_append, List.length_map,
            List.length_range, List.length_cons, List.length_nil]; omega)]
    rw [List.getElem_append_left
      (by simp only [partial_prog, List.length_map, List.length_range]; omega)]
    simp [partial_prog]
  simp only [nfa_patch, hst]
  rw [if_neg (show ¬(Int.ofNat (ns.length - 1) < 0) from not_lt.mpr (Int.ofNat_nonneg _))]
  rw [if_neg (by simp [partial_state])]
  have hstates : ((partial_prog cs ns).states ++
        [(⟨.st_match, 0, fun _ => false, -1, -1⟩ : nfa_state_t)]).set
          (Int.ofNat (ns.length - 1)).toNat
          ({ partial_state ns (ns.length - 1) with out := Int.ofNat ns.length }) =
      (chain_prog cs ns).states := by
    rw [show (Int.ofNat (ns.length - 1)).toNat = ns.length - 1 from rfl]
    have hlA : ((partial_prog cs ns).states ++
        [(⟨.st_match, 0, fun _ => false, -1, -1⟩ : nfa_state_t)]).length = ns.length + 1 := by
      simp [partial_prog]
    apply List.ext_getElem
    · simp only [List.length_set, hlA]
      simp [chain_prog]
    · intro i h1 h2
      have hi : i < ns.length + 1 := by
        rw [List.length_set, hlA] at h1
        exact h1
      rw [List.getElem_set]
      by_cases he : ns.length - 1 = i
      · rw [if_pos he]
        have hrhs : (chain_prog cs ns).states[i] = chain_state ns i := by
          simp only [chain_prog]
          rw [List.getElem_append_left (by simp; omega)]
          simp
        rw [hrhs, ← he]
        show (⟨.st_char, ns.getD (ns.length - 1) 0, fun _ => false,
            Int.ofNat ns.length, -1⟩ : nfa_state_t) = chain_state ns (ns.length - 1)
        unfold chain_state
        have hsub : ns.length - 1 + 1 = ns.length := by omega
        rw [hsub]
      · rw [if_neg he]
        by_cases hlt : i < ns.length
        · have hrhs : (chain_prog cs ns).states[i] = chain_state ns i := by
            simp only [chain_prog]
            rw [List.getElem_append_left (by simp; omega)]
            simp
          rw [hrhs]
          rw [List.getElem_append_left (by simpa [partial_prog] using hlt)]
          simp only [partial_prog, List.getElem_map, List.getElem_range]
          unfold partial_state chain_state
          rw [if_neg (by omega)]
        · have hieq : i = ns.length := by omega
          subst hieq
          have hrhs : (chain_prog cs ns).states[ns.length] =
              (⟨.st_match, 0, fun _ => false, -1, -1⟩ : nfa_state_t) := by
            simp only [chain_prog]
            rw [List.getElem_append_right (by simp)]
            simp
          rw [hrhs]
          rw [List.getElem_append_right (by simp [partial_prog])]
          simp only [show (partial_prog cs ns).states.length = ns.length from by
              simp [partial_prog], Nat.sub_self]
          show (⟨.st_match, 0, fun _ => false, -1, -1⟩ : nfa_state_t) =
            (⟨.st_match, 0, fun _ => false, -1, -1⟩ : nfa_state_t)
          rfl
  rw [hstates]
  show (⟨0, ns.length + 1, cs, (chain_prog cs ns).states⟩ : nfa_program_t) = chain_prog cs ns
  unfold chain_prog
  simp

/-- Attaching the Match state to a dangling chain (no anchors) yields the
finished chain program. -/
theorem finish_chain (cs : Bool) (ns : List Nat) (hns : ns ≠ [])
    (hcap : ns.length < NFA_MAX_STATES) :
    nfa_compile_finish (partial_prog cs ns) (Int.ofNat 0) (Int.ofNat (ns.length - 1))
      false false = some (chain_prog cs ns) := by
  have haddm : nfa_add_state (partial_prog cs ns) .st_match 0 (-1) (-1) =
      some (⟨0, ns.length + 1, cs, (partial_prog cs ns).states ++
        [⟨.st_match, 0, fun _ => false, -1, -1⟩]⟩, ns.length) := by
    unfold nfa_add_state
    rw [if_neg (by simp only [partial_prog]; omega)]
    rfl
  unfold nfa_compile_finish
  split
  · rename_i heq
    rw [if_neg Bool.false_ne_true] at heq
    cases heq
  · rename_i prog1 start1 heq
    rw [if_neg Bool.false_ne_true] at heq
    cases heq
    split
    · rename_i heq2
      rw [haddm] at heq2
      cases heq2
    · rename_i prog2 m heq2
      rw [haddm] at heq2
      cases heq2
      rw [if_neg Bool.false_ne_true]
      rw [if_pos (show (0 : Int) ≤ Int.ofNat (ns.length - 1) from Int.ofNat_nonneg _)]
      rw [chain_patch cs ns hns]
      show some ({ chain_prog cs ns with start_state := Int.ofNat 0 }) = some (chain_prog cs ns)
      rfl

/-- With the chain already at capacity, attaching the Match state fails. -/
theorem finish_overflow (cs : Bool) (ns : List Nat) (start last : Int)
    (h : NFA_MAX_STATES ≤ ns.length) :
    nfa_compile_finish (partial_prog cs ns) start last false false = none := by
  have haddm : nfa_add_state (partial_prog cs ns) .st_match 0 (-1) (-1) = none := by
    unfold nfa_add_state
    rw [if_pos (by simp only [partial_prog]; omega)]
  unfold nfa_compile_finish
  split
  · rename_i heq
    rfl
  · rename_i prog1 start1 heq
    rw [if_neg Bool.false_ne_true] at heq
    cases heq
    split
    · rfl
    · rename_i prog2 m heq2
      rw [haddm] at heq2
      cases heq2

/-- `nfa_compile` on a non-empty pattern of plain literal bytes that fits
the state array yields exactly the literal chain over the folded bytes. -/
theorem compile_plain (pat : List Nat) (h1 : pat ≠ []) (h2 : ∀ c ∈ pat, PlainByte c)
    (h3 : pat.length < NFA_MAX_STATES) (cs : Bool) :
    nfa_compile pat cs = some (chain_prog cs (spec_fold cs pat)) := by
  cases pat with
  | nil => cases h1 rfl
  | cons c rest =>
    obtain ⟨hc92, hc46, hc91, hc42, hc36, hc94, hc0⟩ := h2 c (by simp)
    have hsa : (((c :: rest).headD 0) == 94) = false := by
      simp only [List.headD_cons]
      exact beq_eq_false_iff_ne.mpr hc94
    have hloop : nfa_compile_loop cs ((c :: rest).length + 1)
        (⟨0, 0, cs, []⟩ : nfa_program_t) (-1) (-1) (c :: rest) =
        some (partial_prog cs (spec_fold cs (c :: rest)), [], Int.ofNat 0,
          Int.ofNat ((spec_fold cs (c :: rest)).length - 1)) := by
      show nfa_compile_loop cs (rest.length + 1 + 1) _ (-1) (-1) (c :: rest) = _
      unfold nfa_compile_loop
      rw [if_neg hc36, if_neg hc92, if_neg hc46, if_neg hc91, if_neg hc42]
      have hadd0 : nfa_add_state (⟨0, 0, cs, []⟩ : nfa_program_t) .st_char
          (nfa_normalize c cs) (-1) (-1) =
          some (partial_prog cs [nfa_normalize c cs], 0) := rfl
      split
      · rename_i heq
        rw [hadd0] at heq
        cases heq
      · rename_i prog1 s heq
        rw [hadd0] at heq
        cases heq
        have hlink0 : nfa_link (partial_prog cs [nfa_normalize c cs]) 0 (-1) (-1) =
            (partial_prog cs [nfa_normalize c cs], Int.ofNat 0, Int.ofNat 0) := rfl
        rw [hlink0]
        have hrec : nfa_compile_loop cs (rest.length + 1)
            (partial_prog cs [nfa_normalize c cs]) (Int.ofNat 0) (Int.ofNat 0) rest =
            some (partial_prog cs (spec_fold cs (c :: rest)), [], Int.ofNat 0,
              Int.ofNat ((spec_fold cs (c :: rest)).length - 1)) := by
          exact compile_loop_plain cs rest [nfa_normalize c cs] (rest.length + 1)
            (fun b hb => h2 b (by simp [hb])) (by simp) (by omega)
            (by simp only [List.length_cons, List.length_nil] at h3 ⊢; omega)
        cases rest with
        | nil => exact hrec
        | cons c2 rest2 =>
          obtain ⟨_, _, _, hb42, _, _, _⟩ := h2 c2 (by simp)
          split
          rename_i prog2 start2 last2 heqt
          cases heqt
          split
          · rename_i heq2
            exfalso
            apply hb42
            exact ((List.cons.injEq _ _ _ _).mp heq2).1
          · exact hrec
    have hne : spec_fold cs (c :: rest) ≠ [] := by simp [spec_fold]
    have hlenf : (spec_fold cs (c :: rest)).length = (c :: rest).length := by
      simp [spec_fold]
    unfold nfa_compile
    simp only [hsa, Bool.false_eq_true, if_false]
    split
    · rename_i heq
      rw [hloop] at heq
      cases heq
    · rename_i prog1 rest1 start1 last1 heq
      rw [hloop] at heq
      cases heq
      exact finish_chain cs (spec_fold cs (c :: rest)) hne (by rw [hlenf]; exact h3)

/-- `nfa_compile` on a pattern of plain literal bytes that needs more than
`NFA_MAX_STATES` states fails cleanly with `none`. -/
theorem compile_plain_overflow (pat : List Nat) (h2 : ∀ c ∈ pat, PlainByte c)
    (h3 : NFA_MAX_STATES ≤ pat.length) (cs : Bool) :
    nfa_compile pat cs = none := by
  cases pat with
  | nil => simp [NFA_MAX_STATES] at h3
  | cons c rest =>
    obtain ⟨hc92, hc46, hc91, hc42, hc36, hc94, hc0⟩ := h2 c (by simp)
    have hsa : (((c :: rest).headD 0) == 94) = false := by
      simp only [List.headD_cons]
      exact beq_eq_false_iff_ne.mpr hc94
    have hloop : nfa_compile_loop cs ((c :: rest).length + 1)
        (⟨0, 0, cs, []⟩ : nfa_program_t) (-1) (-1) (c :: rest) =
        (if (c :: rest).length = NFA_MAX_STATES then
          some (partial_prog cs (spec_fold cs (c :: rest)), [], Int.ofNat 0,
            Int.ofNat ((spec_fold cs (c :: rest)).length - 1))
         else none) := by
      show nfa_compile_loop cs (rest.length + 1 + 1) _ (-1) (-1) (c :: rest) = _
      unfold nfa_compile_loop
      rw [if_neg hc36, if_neg hc92, if_neg hc46, if_neg hc91, if_neg hc42]
      have hadd0 : nfa_add_state (⟨0, 0, cs, []⟩ : nfa_program_t) .st_char
          (nfa_normalize c cs) (-1) (-1) =
          some (partial_prog cs [nfa_normalize c cs], 0) := rfl
      split
      · rename_i heq
        rw [hadd0] at heq
        cases heq
      · rename_i prog1 s heq
        rw [hadd0] at heq
        cases heq
        have hlink0 : nfa_link (partial_prog cs [nfa_normalize c cs]) 0 (-1) (-1) =
            (partial_prog cs [nfa_normalize c cs], Int.ofNat 0, Int.ofNat 0) := rfl
        rw [hlink0]
        have hrec : nfa_compile_loop cs (rest.length + 1)
            (partial_prog cs [nfa_normalize c cs]) (Int.ofNat 0) (Int.ofNat 0) rest =
            (if (c :: rest).length = NFA_MAX_STATES then
              some (partial_prog cs (spec_fold cs (c :: rest)), [], Int.ofNat 0,
                Int.ofNat ((spec_fold cs (c :: rest)).length - 1))
             else none) := by
          by_cases hcase : (c :: rest).length = NFA_MAX_STATES
          · rw [if_pos hcase]
            exact compile_loop_plain cs rest [nfa_normalize c cs] (rest.length + 1)
              (fun b hb => h2 b (by simp [hb])) (by simp) (by omega)
              (by simp only [List.length_cons] at hcase; simp only [List.length_cons,
                List.length_nil]; omega)
          · rw [if_neg hcase]
            exact compile_loop_plain_fail cs rest [nfa_normalize c cs] (rest.length + 1)
              (fun b hb => h2 b (by simp [hb])) (by simp) (by omega)
              (by simp only [List.length_cons, List.length_nil, NFA_MAX_STATES]; omega)
              (by simp only [List.length_cons, List.length_nil]
                  simp only [List.length_cons] at h3 hcase
                  omega)
        cases rest with
        | nil => exact hrec
        | cons c2 rest2 =>
          obtain ⟨_, _, _, hb42, _, _, _⟩ := h2 c2 (by simp)
          split
          rename_i prog2 start2 last2 heqt
          cases heqt
          split
          · rename_i heq2
            exfalso
            apply hb42
            exact ((List.cons.injEq _ _ _ _).mp heq2).1
          · exact hrec
    unfold nfa_compile
    simp only [hsa, Bool.false_eq_true, if_false]
    by_cases hcase : (c :: rest).length = NFA_MAX_STATES
    · rw [if_pos hcase] at hloop
      split
      · rfl
      · rename_i prog1 rest1 start1 last1 heq
        rw [hloop] at heq
        cases heq
        exact finish_overflow cs (spec_fold cs (c :: rest)) (Int.ofNat 0)
          (Int.ofNat ((spec_fold cs (c :: rest)).length - 1))
          (by simp only [spec_fold, List.length_map]; omega)
    · rw [if_neg hcase] at hloop
      split
      · rfl
      · rename_i prog1 rest1 start1 last1 heq
        rw [hloop] at heq
        cases heq

/-!  Behaviour of the search on a literal chain (claim C5). -/

theorem nfa_add_epsilon_basic (prog : nfa_program_t) (fuel : Nat) (l : List Int) (s : Int)
    (b e : Bool) (hf : 0 < fuel) (hs : 0 ≤ s)
    (ht : (nth_state prog s.toNat).type = .st_char ∨ (nth_state prog s.toNat).type = .st_any ∨
      (nth_state prog s.toNat).type = .st_class ∨ (nth_state prog s.toNat).type = .st_match) :
    nfa_add_epsilon prog fuel l s b e = nfa_list_add l s := by
  cases fuel with
  | zero => omega
  | succ n =>
    unfold nfa_add_epsilon
    rw [if_neg (not_lt.mpr hs)]
    rcases ht with h | h | h | h <;> rw [h]

theorem chain_nth_type_lt (cs : Bool) (ns : List Nat) (k : Nat) (hk : k < ns.length) :
    (nth_state (chain_prog cs ns) k).type = .st_char := by
  rw [nth_chain_lt cs ns k hk]
  rfl

theorem chain_closure (cs : Bool) (ns : List Nat) (k : Nat) (hk : k ≤ ns.length) (e : Bool) :
    nfa_closure (chain_prog cs ns) [Int.ofNat k] e = [Int.ofNat k] := by
  unfold nfa_closure
  simp only [List.foldl_cons, List.foldl_nil]
  rw [nfa_add_epsilon_basic (chain_prog cs ns) nfa_fuel [] (Int.ofNat k) false e
    (by norm_num [nfa_fuel, NFA_MAX_STATES]) (Int.ofNat_nonneg _) ?_]
  · rfl
  · rw [show (Int.ofNat k).toNat = k from rfl]
    rcases Nat.lt_or_ge k ns.length with h | h
    · left
      exact chain_nth_type_lt cs ns k h
    · right; right; right
      have hke : k = ns.length := by omega
      rw [hke, nth_chain_match]

theorem chain_has_match_lt (cs : Bool) (ns : List Nat) (k : Nat) (hk : k < ns.length) :
    nfa_has_match (chain_prog cs ns) [Int.ofNat k] = false := by
  unfold nfa_has_match
  simp only [List.any_cons, List.any_nil, Bool.or_false]
  rw [show (Int.ofNat k).toNat = k from rfl, nth_chain_lt cs ns k hk]
  rfl

theorem chain_has_match_n (cs : Bool) (ns : List Nat) :
    nfa_has_match (chain_prog cs ns) [Int.ofNat ns.length] = true := by
  unfold nfa_has_match
  simp only [List.any_cons, List.any_nil, Bool.or_false]
  rw [show (Int.ofNat ns.length).toNat = ns.length from rfl, nth_chain_match]

theorem chain_step (cs : Bool) (ns : List Nat) (k : Nat) (byte : Nat) (hk : k < ns.length) :
    nfa_step (chain_prog cs ns) [Int.ofNat k] byte =
      (if byte = ns.getD k 0 then [Int.ofNat (k + 1)] else []) := by
  unfold nfa_step
  simp only [List.foldl_cons, List.foldl_nil]
  rw [show (Int.ofNat k).toNat = k from rfl, nth_chain_lt cs ns k hk]
  show (if byte = ns.getD k 0 then nfa_list_add [] (Int.ofNat (k + 1)) else ([] : List Int)) = _
  split
  · rfl
  · rfl

theorem spec_fold_getD (cs : Bool) (l : List Nat) (i : Nat) (h : i < l.length) :
    (spec_fold cs l).getD i 0 = nfa_normalize (l.getD i 0) cs := by
  unfold spec_fold
  rw [List.getD_eq_getElem _ _ (by simpa using h), List.getD_eq_getElem _ _ h]
  simp

theorem drop_getD_cons (l : List Nat) (i : Nat) (h : i < l.length) :
    l.drop i = l.getD i 0 :: l.drop (i + 1) := by
  rw [List.getD_eq_getElem _ _ h]
  exact List.drop_eq_getElem_cons h

theorem spec_startsWith_nil (l : List Nat) : spec_startsWith [] l = true := rfl

theorem spec_startsWith_cons (a b : Nat) (pa lb : List Nat) :
    spec_startsWith (a :: pa) (b :: lb) = ((a == b) && spec_startsWith pa lb) := rfl

theorem spec_startsWith_cons_nil (a : Nat) (pa : List Nat) :
    spec_startsWith (a :: pa) [] = false := rfl

theorem chain_inner (cs : Bool) (ns str : List Nat) (sp : Nat) :
    ∀ (fuel k pos : Nat), fuel + pos = str.length → pos = sp + k → k < ns.length →
      nfa_search_inner (chain_prog cs ns) str str.length sp fuel pos [Int.ofNat k] =
        (if spec_startsWith (ns.drop k) ((spec_fold cs str).drop pos) then
          some ⟨sp, sp + ns.length, true⟩ else none) := by
  intro fuel
  induction fuel with
  | zero =>
    intro k pos h1 h2 h3
    have hpos : pos = str.length := by omega
    have hdrop : (spec_fold cs str).drop pos = [] := by
      apply List.drop_eq_nil_of_le
      simp [spec_fold, hpos]
    have hdk : ns.drop k = ns.getD k 0 :: ns.drop (k + 1) := drop_getD_cons ns k h3
    unfold nfa_search_inner
    rw [if_pos (by simp)]
    rw [chain_closure cs ns k (le_of_lt h3) true, chain_has_match_lt cs ns k h3]
    rw [hdrop, hdk, spec_startsWith_cons_nil]
    rw [if_neg Bool.false_ne_true, if_neg Bool.false_ne_true]
  | succ f ih =>
    intro k pos h1 h2 h3
    have hpos : pos < str.length := by omega
    have hposf : pos < (spec_fold cs str).length := by simp [spec_fold]; omega
    have hcs : (chain_prog cs ns).case_sensitive = cs := rfl
    have hdk : ns.drop k = ns.getD k 0 :: ns.drop (k + 1) := drop_getD_cons ns k h3
    have hdp : (spec_fold cs str).drop pos =
        (spec_fold cs str).getD pos 0 :: (spec_fold cs str).drop (pos + 1) :=
      drop_getD_cons _ pos hposf
    have hfoldp : (spec_fold cs str).getD pos 0 = nfa_normalize (str.getD pos 0) cs :=
      spec_fold_getD cs str pos hpos
    simp only [nfa_search_inner, hcs]
    rw [chain_step cs ns k (nfa_normalize (str.getD pos 0) cs) h3]
    rw [hdk, hdp, hfoldp, spec_startsWith_cons]
    by_cases hb : nfa_normalize (str.getD pos 0) cs = ns.getD k 0
    · rw [if_pos hb]
      have hbeq : (ns.getD k 0 == nfa_normalize (str.getD pos 0) cs) = true := by
        rw [hb]
        simp
      rw [hbeq, Bool.true_and]
      rcases Nat.lt_or_ge (k + 1) ns.length with hk1 | hk1
      · rw [chain_closure cs ns (k + 1) (le_of_lt hk1) _, chain_has_match_lt cs ns (k + 1) hk1]
        rw [if_neg Bool.false_ne_true]
        rw [if_neg (show ¬([Int.ofNat (k + 1)] : List Int).length = 0 by simp)]
        exact ih (k + 1) (pos + 1) (by omega) (by omega) hk1
      · have hkn : k + 1 = ns.length := by omega
        have hdone : ns.drop (k + 1) = [] := by
          rw [hkn]
          exact List.drop_length ns
        rw [hdone, spec_startsWith_nil]
        rw [hkn, chain_closure cs ns ns.length (le_refl _) _, chain_has_match_n cs ns]
        rw [if_pos rfl, if_pos rfl]
        rw [show pos + 1 = sp + ns.length by omega]
    · rw [if_neg hb]
      rw [nfa_closure_nil, nfa_has_match_nil]
      have hbeq : (ns.getD k 0 == nfa_normalize (str.getD pos 0) cs) = false :=
        beq_eq_false_iff_ne.mpr (fun h => hb h.symm)
      rw [hbeq, Bool.false_and]
      rw [if_neg Bool.false_ne_true, if_neg Bool.false_ne_true]
      rw [if_pos (show (List.length ([] : List Int)) = 0 from rfl)]

theorem chain_at (cs : Bool) (ns str : List Nat) (sp : Nat) (hns : 0 < ns.length)
    (hsp : sp < str.length) :
    nfa_search_at (chain_prog cs ns) str str.length sp =
      (if spec_startsWith ns ((spec_fold cs str).drop sp) then
        some ⟨sp, sp + ns.length, true⟩ else none) := by
  simp only [nfa_search_at]
  have hcur : nfa_add_epsilon (chain_prog cs ns) nfa_fuel [] (chain_prog cs ns).start_state
      (sp == 0) false = [Int.ofNat 0] := by
    rw [nfa_add_epsilon_basic (chain_prog cs ns) nfa_fuel [] (chain_prog cs ns).start_state
      (sp == 0) false (by norm_num [nfa_fuel, NFA_MAX_STATES])
      (show (0 : Int) ≤ 0 from le_refl 0) (Or.inl (chain_nth_type_lt cs ns 0 hns))]
    rfl
  rw [hcur, chain_has_match_lt cs ns 0 hns]
  rw [if_neg Bool.false_ne_true]
  rw [chain_inner cs ns str sp (str.length - sp) 0 sp (by omega) (by omega) hns]
  rw [List.drop_zero]

theorem chain_loop (cs : Bool) (ns str : List Nat) (hns : 0 < ns.length) :
    ∀ (fuel sp : Nat), fuel + sp = str.length →
      nfa_search_loop (chain_prog cs ns) str str.length fuel sp =
        (match spec_find_from ns (spec_fold cs str) fuel sp with
          | some i => (⟨i, i + ns.length, true⟩ : nfa_match_t)
          | none => ⟨0, 0, false⟩) := by
  intro fuel
  induction fuel with
  | zero =>
    intro sp h
    rfl
  | succ f ih =>
    intro sp h
    have hsp : sp < str.length := by omega
    simp only [nfa_search_loop, spec_find_from]
    rw [chain_at cs ns str sp hns hsp]
    by_cases hb : spec_startsWith ns ((spec_fold cs str).drop sp) = true
    · rw [if_pos hb, if_pos hb]
    · rw [if_neg hb, if_neg hb]
      exact ih (sp + 1) (by omega)

/-- C5: for a pattern of plain literal bytes (no metacharacters, no NUL)
that fits in the state array, `nfa_compile` succeeds and `nfa_search`
returns exactly the plain leftmost-substring-search result on the
case-folded bytes: found iff the folded pattern occurs in the folded line,
with `start` the leftmost occurrence offset and `end = start + |pattern|`. -/
theorem c5_literal_substring (pat line : List Nat) (cs : Bool) (h1 : pat ≠ [])
    (h2 : ∀ c ∈ pat, PlainByte c) (h3 : pat.length < NFA_MAX_STATES) :
    (nfa_compile pat cs).map (fun prog => nfa_search prog line line.length) =
      some (spec_substring_result (spec_fold cs pat) (spec_fold cs line)) := by
  rw [compile_plain pat h1 h2 h3 cs]
  have hns : 0 < (spec_fold cs pat).length := by
    simp only [spec_fold, List.length_map]
    exact List.length_pos.mpr h1
  unfold spec_substring_result
  rw [show (spec_fold cs line).length = line.length from by simp [spec_fold]]
  show some (nfa_search_loop (chain_prog cs (spec_fold cs pat)) line line.length line.length 0) = _
  rw [chain_loop cs (spec_fold cs pat) line hns line.length 0 (by omega)]

theorem c5_literal_substring_witness :
    ([84, 79, 68, 79] : List Nat) ≠ [] ∧
    (∀ c ∈ ([84, 79, 68, 79] : List Nat), PlainByte c) ∧
    ([84, 79, 68, 79] : List Nat).length < NFA_MAX_STATES ∧
    (nfa_compile [84, 79, 68, 79] true).map
        (fun prog => nfa_search prog [47, 47, 32, 84, 79, 68, 79, 58, 32, 102, 105, 120, 32, 116, 104, 105, 115]
          ([47, 47, 32, 84, 79, 68, 79, 58, 32, 102, 105, 120, 32, 116, 104, 105, 115] : List Nat).length) =
      some (spec_substring_result (spec_fold true [84, 79, 68, 79])
        (spec_fold true [47, 47, 32, 84, 79, 68, 79, 58, 32, 102, 105, 120, 32, 116, 104, 105, 115])) ∧
    spec_substring_result (spec_fold true [84, 79, 68, 79])
        (spec_fold true [47, 47, 32, 84, 79, 68, 79, 58, 32, 102, 105, 120, 32, 116, 104, 105, 115]) =
      ⟨3, 7, true⟩ :=
  ⟨by decide, by decide, by decide,
    c5_literal_substring [84, 79, 68, 79]
      [47, 47, 32, 84, 79, 68, 79, 58, 32, 102, 105, 120, 32, 116, 104, 105, 115] true
      (by decide) (by decide) (by decide),
    by decide⟩

theorem nfa_patch_count (prog : nfa_program_t) (s t : Int) :
    (nfa_patch prog s t).state_count = prog.state_count := by
  simp only [nfa_patch]
  split
  · rfl
  · split
    · split
      · rfl
      · rfl
    · rfl

theorem nfa_link_count (prog : nfa_program_t) (s : Nat) (start last : Int)
    (p2 : nfa_program_t) (a b : Int) (h : nfa_link prog s start last = (p2, a, b)) :
    p2.state_count = prog.state_count := by
  unfold nfa_link at h
  split at h
  · cases h
    rfl
  · cases h
    exact nfa_patch_count prog last (Int.ofNat s)

theorem getD_append_lt' {α : Type} [Inhabited α] (l : List α) (a : α) (i : Nat)
    (h : i < l.length) : (l ++ [a]).getD i default = l.getD i default := by
  rw [List.getD_eq_getElem _ _ (by simp; omega), List.getD_eq_getElem _ _ h]
  exact List.getElem_append_left h

theorem getD_append_len' {α : Type} [Inhabited α] (l : List α) (a : α) :
    (l ++ [a]).getD l.length default = a := by
  rw [List.getD_eq_getElem _ _ (by simp)]
  simp

theorem getD_set_self' {α : Type} [Inhabited α] (l : List α) (i : Nat) (x : α)
    (h : i < l.length) : (l.set i x).getD i default = x := by
  rw [List.getD_eq_getElem _ _ (by simpa using h)]
  exact List.getElem_set_self _

theorem getD_set_ne' {α : Type} [Inhabited α] (l : List α) (i j : Nat) (x : α)
    (h : i ≠ j) : (l.set i x).getD j default = l.getD j default := by
  rcases Nat.lt_or_ge j l.length with hj | hj
  · rw [List.getD_eq_getElem _ _ (by simpa using hj), List.getD_eq_getElem _ _ hj]
    exact List.getElem_set_ne h _
  · rw [List.getD_eq_default _ _ (by simpa using hj), List.getD_eq_default _ _ hj]

/-- The shape of the program right after a fresh consuming state `s` was
appended (and possibly had its class bitmap filled in): everything old is
untouched and the new state dangles on both edges. -/
def frag_added (prog prog1 : nfa_program_t) (s : Nat) (t : nfa_stype_t) : Prop :=
  s = prog.state_count ∧
  prog1.state_count = prog.state_count + 1 ∧
  prog1.state_count = prog1.states.length ∧
  prog1.state_count ≤ NFA_MAX_STATES ∧
  (∀ i : Nat, i < prog.state_count → nth_state prog1 i = nth_state prog i) ∧
  (nth_state prog1 s).type = t ∧
  (nth_state prog1 s).out = -1 ∧ (nth_state prog1 s).out1 = -1

theorem add_frag (prog : nfa_program_t) (t : nfa_stype_t) (c : Nat)
    (prog1 : nfa_program_t) (s : Nat)
    (hsync : prog.state_count = prog.states.length)
    (hadd : nfa_add_state prog t c (-1) (-1) = some (prog1, s)) :
    frag_added prog prog1 s t := by
  unfold nfa_add_state at hadd
  split at hadd
  · cases hadd
  · rename_i hge
    cases hadd
    refine ⟨rfl, rfl, by simp [hsync], by simp only [NFA_MAX_STATES] at hge ⊢; omega, ?_, ?_, ?_, ?_⟩
    · intro i hi
      show (prog.states ++ [_]).getD i default = prog.states.getD i default
      exact getD_append_lt' _ _ i (by omega)
    · show ((prog.states ++ [_]).getD prog.state_count default).type = t
      rw [hsync, getD_append_len']
    · show ((prog.states ++ [_]).getD prog.state_count default).out = -1
      rw [hsync, getD_append_len']
    · show ((prog.states ++ [_]).getD prog.state_count default).out1 = -1
      rw [hsync, getD_append_len']

theorem set_cls_frag (prog prog1 : nfa_program_t) (s : Nat) (t : nfa_stype_t)
    (cls : Nat → Bool) (hf : frag_added prog prog1 s t) :
    frag_added prog (nfa_set_cls prog1 s cls) s t := by
  obtain ⟨h1, h2, h3, h4, h5, h6, h7, h8⟩ := hf
  have hs : s < prog1.states.length := by omega
  have hset : nth_state (nfa_set_cls prog1 s cls) s = { nth_state prog1 s with cls := cls } := by
    show (prog1.states.set s _).getD s default = _
    exact getD_set_self' _ _ _ hs
  refine ⟨h1, h2, by simpa [nfa_set_cls] using h3, h4, ?_, ?_, ?_, ?_⟩
  · intro i hi
    rw [← h5 i hi]
    show (prog1.states.set s _).getD i default = prog1.states.getD i default
    exact getD_set_ne' _ _ _ _ (by omega)
  · rw [hset]
    exact h6
  · rw [hset]
    exact h7
  · rw [hset]
    exact h8

theorem set_out_frame (prog : nfa_program_t) (s : Nat) (target : Int) (i : Nat)
    (hi : i ≠ s) : nth_state (nfa_set_out prog s target) i = nth_state prog i := by
  show (prog.states.set s _).getD i default = prog.states.getD i default
  exact getD_set_ne' _ _ _ _ (fun hh => hi hh.symm)

theorem set_out_at (prog : nfa_program_t) (s : Nat) (target : Int)
    (hs : s < prog.states.length) :
    nth_state (nfa_set_out prog s target) s = { nth_state prog s with out := target } := by
  show (prog.states.set s _).getD s default = _
  exact getD_set_self' _ _ _ hs

theorem patch_frame (prog : nfa_program_t) (last target : Int) (i : Nat)
    (hi : i ≠ last.toNat) : nth_state (nfa_patch prog last target) i = nth_state prog i := by
  simp only [nfa_patch]
  split
  · rfl
  · split
    · split
      · show (prog.states.set last.toNat _).getD i default = prog.states.getD i default
        exact getD_set_ne' _ _ _ _ (fun hh => hi hh.symm)
      · show (prog.states.set last.toNat _).getD i default = prog.states.getD i default
        exact getD_set_ne' _ _ _ _ (fun hh => hi hh.symm)
    · show (prog.states.set last.toNat _).getD i default = prog.states.getD i default
      exact getD_set_ne' _ _ _ _ (fun hh => hi hh.symm)

theorem patch_states_length (prog : nfa_program_t) (last target : Int) :
    (nfa_patch prog last target).states.length = prog.states.length := by
  simp only [nfa_patch]
  split
  · rfl
  · split
    · split
      · simp
      · simp
    · simp

theorem patch_start_state (prog : nfa_program_t) (last target : Int) :
    (nfa_patch prog last target).start_state = prog.start_state := by
  simp only [nfa_patch]
  split
  · rfl
  · split
    · split
      · rfl
      · rfl
    · rfl

theorem patch_at_split (prog : nfa_program_t) (last target : Int) (hl : ¬last < 0)
    (hlen : last.toNat < prog.states.length)
    (hty : (nth_state prog last.toNat).type = .st_split)
    (hdangle : (nth_state prog last.toNat).out1 < 0) :
    nth_state (nfa_patch prog last target) last.toNat =
      { nth_state prog last.toNat with out1 := target } := by
  simp only [nfa_patch]
  rw [if_neg hl, if_pos hty, if_pos hdangle]
  show (prog.states.set last.toNat _).getD last.toNat default = _
  exact getD_set_self' _ _ _ hlen

theorem patch_at_nonsplit (prog : nfa_program_t) (last target : Int) (hl : ¬last < 0)
    (hlen : last.toNat < prog.states.length)
    (hty : (nth_state prog last.toNat).type ≠ .st_split) :
    nth_state (nfa_patch prog last target) last.toNat =
      { nth_state prog last.toNat with out := target } := by
  simp only [nfa_patch]
  rw [if_neg hl, if_neg hty]
  show (prog.states.set last.toNat _).getD last.toNat default = _
  exact getD_set_self' _ _ _ hlen

theorem state_ok_mono (n n' : Nat) (st : nfa_state_t) (h : n ≤ n')
    (hok : state_ok n st) : state_ok n' st := by
  unfold state_ok at hok ⊢
  have hle : (n : Int) ≤ (n' : Int) := Int.ofNat_le.mpr h
  split
  · trivial
  · rename_i hty
    rw [hty] at hok
    exact ⟨hok.1, lt_of_lt_of_le hok.2.1 hle, hok.2.2.1, lt_of_lt_of_le hok.2.2.2 hle⟩
  · rename_i hty1 hty2
    split at hok
    · rename_i hty
      rw [hty] at hty1
      cases hty1 rfl
    · rename_i hty
      rw [hty] at hty2
      cases hty2 rfl
    · exact ⟨hok.1, lt_of_lt_of_le hok.2 hle⟩

theorem state_ok_intro (n : Nat) (st : nfa_state_t)
    (h1 : 0 ≤ st.out) (h2 : st.out < (n : Int))
    (h3 : st.type = .st_split → 0 ≤ st.out1 ∧ st.out1 < (n : Int)) :
    state_ok n st := by
  unfold state_ok
  split
  · trivial
  · rename_i hty
    exact ⟨h1, h2, (h3 hty).1, (h3 hty).2⟩
  · exact ⟨h1, h2⟩

theorem state_ok_elim (n : Nat) (st : nfa_state_t) (hok : state_ok n st)
    (hm : st.type ≠ .st_match) :
    0 ≤ st.out ∧ st.out < (n : Int) ∧
    (st.type = .st_split → 0 ≤ st.out1 ∧ st.out1 < (n : Int)) := by
  unfold state_ok at hok
  split at hok
  · rename_i hty
    exact absurd hty hm
  · rename_i hty
    exact ⟨hok.1, hok.2.1, fun _ => ⟨hok.2.2.1, hok.2.2.2⟩⟩
  · rename_i hty1 hty2
    exact ⟨hok.1, hok.2, fun hc => absurd hc hty2⟩

theorem state_closed_of_ok (n : Nat) (st : nfa_state_t) (hok : state_ok n st)
    (hm : st.type ≠ .st_match) : state_closed n st := by
  unfold state_closed
  split
  · rename_i hty
    exact absurd hty hm
  · rename_i hty
    unfold state_ok at hok
    rw [hty] at hok
    exact hok
  · rename_i hty1 hty2
    unfold state_ok at hok
    obtain ⟨h1, h2, h3⟩ := state_ok_elim n st (by unfold state_ok; exact hok) hty1
    exact ⟨h1, h2⟩

theorem link_inv (prog prog1 : nfa_program_t) (s : Nat) (t : nfa_stype_t)
    (start last : Int)
    (hinv : loop_inv prog start last)
    (ht1 : t ≠ .st_split) (ht2 : t ≠ .st_match)
    (hf : frag_added prog prog1 s t)
    (prog2 : nfa_program_t) (start2 last2 : Int)
    (hlink : nfa_link prog1 s start last = (prog2, start2, last2)) :
    loop_inv prog2 start2 last2 ∧ last2 = Int.ofNat s ∧ s = prog.state_count ∧
    prog2.state_count = prog.state_count + 1 ∧
    nth_state prog2 s = nth_state prog1 s ∧ 0 ≤ start2 := by
  obtain ⟨hsync, hcap, hnom, hdisj⟩ := hinv
  obtain ⟨hfs, hfc, hfsync, hfcap, hfrm, hft, hfo, hfo1⟩ := hf
  unfold nfa_link at hlink
  split at hlink
  · rename_i hstart
    cases hlink
    rcases hdisj with ⟨hs1, hl1, hempty⟩ | ⟨hs0, _⟩
    · have hc0 : prog.state_count = 0 := by rw [hsync, hempty]; rfl
      refine ⟨⟨hfsync, hfcap, ?_, Or.inr ⟨Int.ofNat_nonneg s, Int.ofNat_lt.mpr (by omega), Int.ofNat_nonneg s, Int.ofNat_lt.mpr (by omega), ?_, ?_⟩⟩,
        rfl, hfs, hfc, rfl, Int.ofNat_nonneg s⟩
      · intro i hi
        have hieq : i = s := by omega
        rw [hieq, hft]
        exact ht2
      · intro i hi hne
        have hne' : i ≠ s := by simpa using hne
        exfalso
        omega
      · intro hsp
        have hsp' : (nth_state prog1 s).type = .st_split := hsp
        rw [hft] at hsp'
        exact absurd hsp' ht1
    · rw [hstart] at hs0
      exact absurd hs0 (by decide)
  · rename_i hstart
    cases hlink
    rcases hdisj with ⟨hs1, _, _⟩ | ⟨hs0, hs1, hl0, hl1, hok, hlok⟩
    · exact absurd hs1 hstart
    · have hlnat : last.toNat < prog.state_count := by omega
      have hlen1 : last.toNat < prog1.states.length := by omega
      have hsl : last.toNat ≠ s := by omega
      have hfrm_last : nth_state prog1 last.toNat = nth_state prog last.toNat := hfrm _ hlnat
      have hcnt2 : (nfa_patch prog1 last (Int.ofNat s)).state_count = prog.state_count + 1 := by
        rw [nfa_patch_count]
        exact hfc
      have hlen2 : (nfa_patch prog1 last (Int.ofNat s)).states.length = prog1.states.length :=
        patch_states_length prog1 last (Int.ofNat s)
      have hfr_s : nth_state (nfa_patch prog1 last (Int.ofNat s)) s = nth_state prog1 s :=
        patch_frame prog1 last (Int.ofNat s) s (Ne.symm hsl)
      have hlast_ok2 : last_ok (nfa_patch prog1 last (Int.ofNat s)) (Int.ofNat s) := by
        intro hsp
        have hsp' : (nth_state (nfa_patch prog1 last (Int.ofNat s)) s).type = .st_split := hsp
        rw [hfr_s, hft] at hsp'
        exact absurd hsp' ht1
      have hpatched : state_ok (prog.state_count + 1)
          (nth_state (nfa_patch prog1 last (Int.ofNat s)) last.toNat) := by
        by_cases hty : (nth_state prog last.toNat).type = .st_split
        · obtain ⟨hd1, hd2, hd3⟩ := hlok hty
          rw [patch_at_split prog1 last (Int.ofNat s) (by omega) hlen1
            (by rw [hfrm_last]; exact hty) (by rw [hfrm_last, hd3]; decide)]
          refine state_ok_intro _ _ ?_ ?_ ?_
          · show 0 ≤ (nth_state prog1 last.toNat).out
            rw [hfrm_last]
            exact hd1
          · show (nth_state prog1 last.toNat).out < _
            rw [hfrm_last]
            exact lt_of_lt_of_le hd2 (by omega)
          · intro _
            exact ⟨Int.ofNat_nonneg s, Int.ofNat_lt.mpr (by omega)⟩
        · rw [patch_at_nonsplit prog1 last (Int.ofNat s) (by omega) hlen1
            (by rw [hfrm_last]; exact hty)]
          refine state_ok_intro _ _ (Int.ofNat_nonneg s) (Int.ofNat_lt.mpr (by omega)) ?_
          · intro hc
            have hc' : (nth_state prog1 last.toNat).type = .st_split := hc
            rw [hfrm_last] at hc'
            exact absurd hc' hty
      refine ⟨⟨?_, ?_, ?_, Or.inr ⟨hs0, ?_, Int.ofNat_nonneg s, ?_, ?_, hlast_ok2⟩⟩,
        rfl, hfs, hcnt2, hfr_s, hs0⟩
      · rw [hcnt2, hlen2]
        omega
      · rw [hcnt2]
        omega
      · intro i hi
        rw [hcnt2] at hi
        by_cases hil : i = last.toNat
        · subst hil
          by_cases hty : (nth_state prog last.toNat).type = .st_split
          · obtain ⟨hd1, hd2, hd3⟩ := hlok hty
            rw [patch_at_split prog1 last (Int.ofNat s) (by omega) hlen1
              (by rw [hfrm_last]; exact hty) (by rw [hfrm_last, hd3]; decide)]
            show (nth_state prog1 last.toNat).type ≠ _
            rw [hfrm_last]
            exact hnom _ hlnat
          · rw [patch_at_nonsplit prog1 last (Int.ofNat s) (by omega) hlen1
              (by rw [hfrm_last]; exact hty)]
            show (nth_state prog1 last.toNat).type ≠ _
            rw [hfrm_last]
            exact hnom _ hlnat
        · rw [patch_frame prog1 last (Int.ofNat s) i hil]
          by_cases his : i = s
          · rw [his, hft]
            exact ht2
          · have hip : i < prog.state_count := by omega
            rw [hfrm i hip]
            exact hnom i hip
      · rw [hcnt2]
        omega
      · exact Int.ofNat_lt.mpr (by omega)
      · intro i hi hne
        rw [hcnt2] at hi
        have hne' : i ≠ s := by simpa using hne
        by_cases hil : i = last.toNat
        · subst hil
          rw [hcnt2]
          exact hpatched
        · rw [patch_frame prog1 last (Int.ofNat s) i hil]
          have hip : i < prog.state_count := by omega
          rw [hfrm i hip, hcnt2]
          exact state_ok_mono _ _ _ (by omega) (hok i hip hil)

theorem link_inv_p (prog prog1 : nfa_program_t) (s : Nat) (t : nfa_stype_t)
    (start last : Int)
    (hinv : loop_inv prog start last)
    (ht1 : t ≠ .st_split) (ht2 : t ≠ .st_match)
    (hf : frag_added prog prog1 s t) :
    loop_inv (nfa_link prog1 s start last).1 (nfa_link prog1 s start last).2.1
      (nfa_link prog1 s start last).2.2 ∧
    (nfa_link prog1 s start last).2.2 = Int.ofNat s ∧ s = prog.state_count ∧
    (nfa_link prog1 s start last).1.state_count = prog.state_count + 1 ∧
    nth_state (nfa_link prog1 s start last).1 s = nth_state prog1 s ∧
    0 ≤ (nfa_link prog1 s start last).2.1 :=
  link_inv prog prog1 s t start last hinv ht1 ht2 hf
    (nfa_link prog1 s start last).1 (nfa_link prog1 s start last).2.1
    (nfa_link prog1 s start last).2.2 rfl

theorem nfa_star_inv (prog : nfa_program_t) (s : Nat) (start : Int)
    (hinv : loop_inv prog start (Int.ofNat s))
    (hty1 : (nth_state prog s).type ≠ .st_split)
    (hty2 : (nth_state prog s).type ≠ .st_match)
    (p3 : nfa_program_t) (st3 ls3 : Int)
    (h : nfa_star prog s start (Int.ofNat s) = some (p3, st3, ls3)) :
    loop_inv p3 st3 ls3 := by
  obtain ⟨hsync, hcap, hnom, hdisj⟩ := hinv
  rcases hdisj with ⟨_, hl1, _⟩ | ⟨hs0, hs1, hl0, hl1, hok, hlok⟩
  · have h0 : (0 : Int) ≤ Int.ofNat s := Int.ofNat_nonneg s
    rw [hl1] at h0
    exact absurd h0 (by decide)
  · have hs : s < prog.state_count := Int.ofNat_lt.mp hl1
    unfold nfa_star at h
    split at h
    · cases h
    · rename_i prog1 sp hadd
      obtain ⟨hfs, hfc, hfsync, hfcap, hfrm, hft, hfo, hfo1⟩ :=
        add_frag prog .st_split 0 prog1 sp hsync hadd
      have hs_len : s < prog1.states.length := by omega
      have hsp_len : sp < prog1.states.length := by omega
      have hs_ne : s ≠ sp := by omega
      have hc3 : (nfa_set_out (nfa_set_out prog1 s (Int.ofNat sp)) sp (Int.ofNat s)).state_count =
          prog.state_count + 1 := hfc
      have hlen3 : (nfa_set_out (nfa_set_out prog1 s (Int.ofNat sp)) sp (Int.ofNat s)).states.length =
          prog1.states.length := by simp [nfa_set_out]
      have hnth_s : nth_state (nfa_set_out (nfa_set_out prog1 s (Int.ofNat sp)) sp (Int.ofNat s)) s =
          { nth_state prog s with out := Int.ofNat sp } := by
        rw [set_out_frame _ sp _ s hs_ne, set_out_at prog1 s _ hs_len, hfrm s hs]
      have hnth_sp : nth_state (nfa_set_out (nfa_set_out prog1 s (Int.ofNat sp)) sp (Int.ofNat s)) sp =
          { nth_state prog1 sp with out := Int.ofNat s } := by
        rw [set_out_at _ sp _ (by simpa [nfa_set_out] using hsp_len),
          set_out_frame prog1 s _ sp (Ne.symm hs_ne)]
      have hframe : ∀ i : Nat, i ≠ s → i ≠ sp → i < prog.state_count →
          nth_state (nfa_set_out (nfa_set_out prog1 s (Int.ofNat sp)) sp (Int.ofNat s)) i =
            nth_state prog i := by
        intro i his hisp hi
        rw [set_out_frame _ sp _ i hisp, set_out_frame prog1 s _ i his, hfrm i hi]
      have hok_s : state_ok (prog.state_count + 1) ({ nth_state prog s with out := Int.ofNat sp }) :=
        state_ok_intro _ _ (Int.ofNat_nonneg sp) (Int.ofNat_lt.mpr (by omega))
          (fun hc => absurd hc hty1)
      have hnomatch : ∀ i : Nat,
          i < (nfa_set_out (nfa_set_out prog1 s (Int.ofNat sp)) sp (Int.ofNat s)).state_count →
          (nth_state (nfa_set_out (nfa_set_out prog1 s (Int.ofNat sp)) sp (Int.ofNat s)) i).type ≠
            .st_match := by
        intro i hi
        rw [hc3] at hi
        by_cases his : i = s
        · subst his
          rw [hnth_s]
          exact hty2
        · by_cases hisp : i = sp
          · subst hisp
            rw [hnth_sp]
            show (nth_state prog1 i).type ≠ _
            rw [hft]
            exact fun hcon => nfa_stype_t.noConfusion hcon
          · have hi' : i < prog.state_count := by omega
            rw [hframe i his hisp hi']
            exact hnom i hi'
      have hok_all : ∀ i : Nat,
          i < (nfa_set_out (nfa_set_out prog1 s (Int.ofNat sp)) sp (Int.ofNat s)).state_count →
          i ≠ sp →
          state_ok (nfa_set_out (nfa_set_out prog1 s (Int.ofNat sp)) sp (Int.ofNat s)).state_count
            (nth_state (nfa_set_out (nfa_set_out prog1 s (Int.ofNat sp)) sp (Int.ofNat s)) i) := by
        intro i hi hne
        rw [hc3] at hi
        rw [hc3]
        by_cases his : i = s
        · subst his
          rw [hnth_s]
          exact hok_s
        · have hi' : i < prog.state_count := by omega
          rw [hframe i his hne hi']
          exact state_ok_mono _ _ _ (by omega) (hok i hi' (by simpa using his))
      have hlast3 : last_ok (nfa_set_out (nfa_set_out prog1 s (Int.ofNat sp)) sp (Int.ofNat s))
          (Int.ofNat sp) := by
        intro _
        refine ⟨?_, ?_, ?_⟩
        · show 0 ≤ (nth_state _ sp).out
          rw [hnth_sp]
          exact Int.ofNat_nonneg s
        · show (nth_state _ sp).out < _
          rw [hnth_sp, hc3]
          exact Int.ofNat_lt.mpr (by omega)
        · show (nth_state _ sp).out1 = -1
          rw [hnth_sp]
          exact hfo1
      have hsync3 : (nfa_set_out (nfa_set_out prog1 s (Int.ofNat sp)) sp (Int.ofNat s)).state_count =
          (nfa_set_out (nfa_set_out prog1 s (Int.ofNat sp)) sp (Int.ofNat s)).states.length := by
        rw [hc3, hlen3]
        omega
      have hcap3 : (nfa_set_out (nfa_set_out prog1 s (Int.ofNat sp)) sp (Int.ofNat s)).state_count ≤
          NFA_MAX_STATES := hfcap
      split at h
      · rename_i hcond
        cases h
        exact ⟨hsync3, hcap3, hnomatch,
          Or.inr ⟨Int.ofNat_nonneg sp, by rw [hc3]; exact Int.ofNat_lt.mpr (by omega),
            Int.ofNat_nonneg sp, by rw [hc3]; exact Int.ofNat_lt.mpr (by omega),
            fun i hi hne => hok_all i hi (by simpa using hne), hlast3⟩⟩
      · rename_i hcond
        cases h
        have hpl : ¬(Int.ofNat s) < 0 := not_lt.mpr (Int.ofNat_nonneg s)
        have hplen : (Int.ofNat s).toNat <
            (nfa_set_out (nfa_set_out prog1 s (Int.ofNat sp)) sp (Int.ofNat s)).states.length := by
          show s < _
          rw [hlen3]
          exact hs_len
        have hpty : (nth_state (nfa_set_out (nfa_set_out prog1 s (Int.ofNat sp)) sp (Int.ofNat s))
            (Int.ofNat s).toNat).type ≠ .st_split := by
          show (nth_state _ s).type ≠ _
          rw [hnth_s]
          exact hty1
        have hpatch := patch_at_nonsplit _ (Int.ofNat s) (Int.ofNat sp) hpl hplen hpty
        have hpc : (nfa_patch (nfa_set_out (nfa_set_out prog1 s (Int.ofNat sp)) sp (Int.ofNat s))
            (Int.ofNat s) (Int.ofNat sp)).state_count = prog.state_count + 1 := by
          rw [nfa_patch_count]
          exact hc3
        refine ⟨?_, ?_, ?_, Or.inr ⟨hs0, ?_, Int.ofNat_nonneg sp, ?_, ?_, ?_⟩⟩
        · rw [hpc, patch_states_length, hlen3]
          omega
        · rw [hpc]
          omega
        · intro i hi
          rw [hpc] at hi
          by_cases his : i = s
          · subst his
            rw [show ((Int.ofNat i).toNat) = i from rfl] at hpatch
            rw [hpatch, hnth_s]
            exact hty2
          · rw [patch_frame _ _ _ i (by simpa using his)]
            exact hnomatch i (by rw [hc3]; omega)
        · rw [hpc]
          exact lt_of_lt_of_le hs1 (by exact Int.ofNat_le.mpr (by omega))
        · rw [hpc]
          exact Int.ofNat_lt.mpr (by omega)
        · intro i hi hne
          rw [hpc] at hi
          have hne' : i ≠ sp := by simpa using hne
          rw [hpc]
          by_cases his : i = s
          · subst his
            rw [show ((Int.ofNat i).toNat) = i from rfl] at hpatch
            rw [hpatch, hnth_s]
            exact hok_s
          · rw [patch_frame _ _ _ i (by simpa using his)]
            have := hok_all i (by rw [hc3]; omega) hne'
            rw [hc3] at this
            exact this
        · intro hsp2
          have hps : nth_state (nfa_patch (nfa_set_out (nfa_set_out prog1 s (Int.ofNat sp)) sp
              (Int.ofNat s)) (Int.ofNat s) (Int.ofNat sp)) sp =
              nth_state (nfa_set_out (nfa_set_out prog1 s (Int.ofNat sp)) sp (Int.ofNat s)) sp :=
            patch_frame _ _ _ sp (by simpa using (Ne.symm hs_ne))
          refine ⟨?_, ?_, ?_⟩
          · show 0 ≤ (nth_state (nfa_patch (nfa_set_out (nfa_set_out prog1 s (Int.ofNat sp)) sp
              (Int.ofNat s)) (Int.ofNat s) (Int.ofNat sp)) sp).out
            rw [hps, hnth_sp]
            exact Int.ofNat_nonneg s
          · show (nth_state (nfa_patch (nfa_set_out (nfa_set_out prog1 s (Int.ofNat sp)) sp
              (Int.ofNat s)) (Int.ofNat s) (Int.ofNat sp)) sp).out < _
            rw [hps, hnth_sp, hpc]
            exact Int.ofNat_lt.mpr (by omega)
          · show (nth_state (nfa_patch (nfa_set_out (nfa_set_out prog1 s (Int.ofNat sp)) sp
              (Int.ofNat s)) (Int.ofNat s) (Int.ofNat sp)) sp).out1 = -1
            rw [hps, hnth_sp]
            exact hfo1

theorem class_inv (cs : Bool) (prog : nfa_program_t) (start last : Int) (p : List Nat)
    (hinv : loop_inv prog start last)
    (p3 : nfa_program_t) (a b : Int) (r : List Nat)
    (h : nfa_compile_class cs prog start last p = some (p3, a, b, r)) :
    loop_inv p3 a b := by
  revert h
  simp only [nfa_compile_class]
  split
  · intro h
    cases h
  · split
    · intro h
      cases h
    · split
      · rename_i p3x heq2
        split
        · intro h
          cases h
        · rename_i prog1 s hadd
          have hfrag : frag_added prog (nfa_set_cls prog1 s (if (p.headD 0 == 94) = true
                then nfa_class_negate (nfa_class_loop cs
                  ((if (p.headD 0 == 94) = true then p.tail else p).length + 1) (fun _ => false)
                  (if (p.headD 0 == 94) = true then p.tail else p)).1
                else (nfa_class_loop cs
                  ((if (p.headD 0 == 94) = true then p.tail else p).length + 1) (fun _ => false)
                  (if (p.headD 0 == 94) = true then p.tail else p)).1)) s .st_class :=
            set_cls_frag prog prog1 s .st_class _
              (add_frag prog .st_class 0 prog1 s hinv.1 hadd)
          obtain ⟨hinv2, hlast2, hs2, hc2, hnth2, hst2⟩ :=
            link_inv_p prog (nfa_set_cls prog1 s (if (p.headD 0 == 94) = true
                then nfa_class_negate (nfa_class_loop cs
                  ((if (p.headD 0 == 94) = true then p.tail else p).length + 1) (fun _ => false)
                  (if (p.headD 0 == 94) = true then p.tail else p)).1
                else (nfa_class_loop cs
                  ((if (p.headD 0 == 94) = true then p.tail else p).length + 1) (fun _ => false)
                  (if (p.headD 0 == 94) = true then p.tail else p)).1)) s .st_class start last hinv
              (fun hh => nfa_stype_t.noConfusion hh) (fun hh => nfa_stype_t.noConfusion hh)
              hfrag
          have hft : (nth_state ((nfa_link (nfa_set_cls prog1 s (if (p.headD 0 == 94) = true
                then nfa_class_negate (nfa_class_loop cs
                  ((if (p.headD 0 == 94) = true then p.tail else p).length + 1) (fun _ => false)
                  (if (p.headD 0 == 94) = true then p.tail else p)).1
                else (nfa_class_loop cs
                  ((if (p.headD 0 == 94) = true then p.tail else p).length + 1) (fun _ => false)
                  (if (p.headD 0 == 94) = true then p.tail else p)).1)) s start last).1) s).type =
              .st_class := by
            rw [hnth2]
            exact hfrag.2.2.2.2.2.1
          split
          · split
            · intro h
              cases h
            · rename_i prog4 st4 ls4 hstar
              intro h
              cases h
              rw [hlast2] at hstar hinv2
              exact nfa_star_inv _ s _ hinv2
                (fun hh => nfa_stype_t.noConfusion (hft.symm.trans hh))
                (fun hh => nfa_stype_t.noConfusion (hft.symm.trans hh)) _ _ _ hstar
          · intro h
            cases h
            exact hinv2
      · intro h
        cases h

theorem compile_loop_inv (cs : Bool) :
    ∀ (fuel : Nat) (prog : nfa_program_t) (start last : Int) (p : List Nat)
      (prog1 : nfa_program_t) (rest : List Nat) (a b : Int),
      loop_inv prog start last →
      nfa_compile_loop cs fuel prog start last p = some (prog1, rest, a, b) →
      loop_inv prog1 a b := by
  intro fuel
  induction fuel with
  | zero =>
    intro prog start last p prog1 rest a b hpre h
    cases h
  | succ f ih =>
    intro prog start last p prog1 rest a b hpre h
    cases p with
    | nil =>
      cases h
      exact hpre
    | cons c crest =>
      revert h
      simp only [nfa_compile_loop]
      split
      · intro h
        cases h
        exact hpre
      · split
        · split
          · intro h
            cases h
            exact hpre
          · rename_i d rest2
            split
            · intro h
              cases h
            · rename_i pg1 s hadd
              intro h
              obtain ⟨hinv2, hlast2, hs2, hc2, hnth2, hst2⟩ :=
                link_inv_p prog pg1 s .st_char start last hpre
                  (fun hh => nfa_stype_t.noConfusion hh) (fun hh => nfa_stype_t.noConfusion hh)
                  (add_frag prog .st_char (nfa_normalize d cs) pg1 s hpre.1 hadd)
              exact ih _ _ _ rest2 prog1 rest a b hinv2 h
        · split
          · split
            · intro h
              cases h
            · rename_i pg1 s hadd
              obtain ⟨hinv2, hlast2, hs2, hc2, hnth2, hst2⟩ :=
                link_inv_p prog pg1 s .st_any start last hpre
                  (fun hh => nfa_stype_t.noConfusion hh) (fun hh => nfa_stype_t.noConfusion hh)
                  (add_frag prog .st_any 0 pg1 s hpre.1 hadd)
              have hft : (nth_state ((nfa_link pg1 s start last).1) s).type = .st_any := by
                rw [hnth2]
                exact (add_frag prog .st_any 0 pg1 s hpre.1 hadd).2.2.2.2.2.1
              split
              · rename_i rest2
                split
                · intro h
                  cases h
                · rename_i pg3 st3 ls3 hstar
                  intro h
                  rw [hlast2] at hstar hinv2
                  exact ih pg3 st3 ls3 rest2 prog1 rest a b
                    (nfa_star_inv _ s _ hinv2
                      (fun hh => nfa_stype_t.noConfusion (hft.symm.trans hh))
                      (fun hh => nfa_stype_t.noConfusion (hft.symm.trans hh)) pg3 st3 ls3 hstar) h
              · intro h
                exact ih _ _ _ crest prog1 rest a b hinv2 h
          · split
            · split
              · intro h
                cases h
              · rename_i pg3 st3 ls3 rest3 hcls
                intro h
                exact ih pg3 st3 ls3 rest3 prog1 rest a b
                  (class_inv cs prog start last crest hpre pg3 st3 ls3 rest3 hcls) h
            · split
              · intro h
                cases h
              · split
                · intro h
                  cases h
                · rename_i pg1 s hadd
                  obtain ⟨hinv2, hlast2, hs2, hc2, hnth2, hst2⟩ :=
                    link_inv_p prog pg1 s .st_char start last hpre
                      (fun hh => nfa_stype_t.noConfusion hh) (fun hh => nfa_stype_t.noConfusion hh)
                      (add_frag prog .st_char (nfa_normalize c cs) pg1 s hpre.1 hadd)
                  have hft : (nth_state ((nfa_link pg1 s start last).1) s).type = .st_char := by
                    rw [hnth2]
                    exact (add_frag prog .st_char (nfa_normalize c cs) pg1 s hpre.1 hadd).2.2.2.2.2.1
                  split
                  · rename_i rest2
                    split
                    · intro h
                      cases h
                    · rename_i pg3 st3 ls3 hstar
                      intro h
                      rw [hlast2] at hstar hinv2
                      exact ih pg3 st3 ls3 rest2 prog1 rest a b
                        (nfa_star_inv _ s _ hinv2
                          (fun hh => nfa_stype_t.noConfusion (hft.symm.trans hh))
                          (fun hh => nfa_stype_t.noConfusion (hft.symm.trans hh)) pg3 st3 ls3 hstar) h
                  · intro h
                    exact ih _ _ _ crest prog1 rest a b hinv2 h

theorem state_closed_intro (n : Nat) (st : nfa_state_t) (hm : st.type ≠ .st_match)
    (h1 : 0 ≤ st.out) (h2 : st.out < (n : Int))
    (h3 : st.type = .st_split → 0 ≤ st.out1 ∧ st.out1 < (n : Int)) :
    state_closed n st := by
  unfold state_closed
  split
  · rename_i hty
    exact absurd hty hm
  · rename_i hty
    exact ⟨h1, h2, (h3 hty).1, (h3 hty).2⟩
  · exact ⟨h1, h2⟩

theorem state_closed_match (n : Nat) (st : nfa_state_t) (hty : st.type = .st_match)
    (h : st.out = -1) : state_closed n st := by
  unfold state_closed
  split
  · exact h
  · rename_i hty2
    rw [hty] at hty2
    exact nfa_stype_t.noConfusion hty2
  · rename_i x hty1 hty2
    exact absurd hty hty1

theorem state_closed_mono (n n' : Nat) (st : nfa_state_t) (h : n ≤ n')
    (hok : state_closed n st) : state_closed n' st := by
  unfold state_closed at hok ⊢
  have hle : (n : Int) ≤ (n' : Int) := Int.ofNat_le.mpr h
  split
  · rename_i hty0
    split at hok
    · exact hok
    · rename_i hty2
      rw [hty0] at hty2
      exact nfa_stype_t.noConfusion hty2
    · rename_i hty1 _
      exact absurd hty0 hty1
  · rename_i hty
    rw [hty] at hok
    exact ⟨hok.1, lt_of_lt_of_le hok.2.1 hle, hok.2.2.1, lt_of_lt_of_le hok.2.2.2 hle⟩
  · rename_i hty1 hty2
    split at hok
    · rename_i hty
      rw [hty] at hty1
      exact absurd rfl hty1
    · rename_i hty
      rw [hty] at hty2
      exact absurd rfl hty2
    · exact ⟨hok.1, lt_of_lt_of_le hok.2 hle⟩

theorem patch_resolve_closed (prog : nfa_program_t) (last target : Int) (n : Nat)
    (hl0 : 0 ≤ last) (hlen : last.toNat < prog.states.length)
    (hnm : (nth_state prog last.toNat).type ≠ .st_match)
    (hlok : (nth_state prog last.toNat).type = .st_split →
      0 ≤ (nth_state prog last.toNat).out ∧
      (nth_state prog last.toNat).out < (n : Int) ∧
      (nth_state prog last.toNat).out1 = -1)
    (ht0 : 0 ≤ target) (ht1 : target < (n : Int)) :
    state_closed n (nth_state (nfa_patch prog last target) last.toNat) := by
  by_cases hty : (nth_state prog last.toNat).type = .st_split
  · obtain ⟨hd1, hd2, hd3⟩ := hlok hty
    rw [patch_at_split prog last target (by omega) hlen hty (by rw [hd3]; decide)]
    refine state_closed_intro _ _ ?_ ?_ ?_ ?_
    · show (nth_state prog last.toNat).type ≠ _
      exact hnm
    · show 0 ≤ (nth_state prog last.toNat).out
      exact hd1
    · show (nth_state prog last.toNat).out < _
      exact hd2
    · intro _
      exact ⟨ht0, ht1⟩
  · rw [patch_at_nonsplit prog last target (by omega) hlen hty]
    refine state_closed_intro _ _ ?_ ht0 ht1 ?_
    · show (nth_state prog last.toNat).type ≠ _
      exact hnm
    · intro hc
      exact absurd hc hty

theorem add_spec (prog : nfa_program_t) (t : nfa_stype_t) (c : Nat) (o o1 : Int)
    (prog1 : nfa_program_t) (s : Nat)
    (hsync : prog.state_count = prog.states.length)
    (hadd : nfa_add_state prog t c o o1 = some (prog1, s)) :
    s = prog.state_count ∧
    prog1.state_count = prog.state_count + 1 ∧
    prog1.state_count = prog1.states.length ∧
    prog1.state_count ≤ NFA_MAX_STATES ∧
    (∀ i : Nat, i < prog.state_count → nth_state prog1 i = nth_state prog i) ∧
    nth_state prog1 s = ⟨t, c, fun _ => false, o, o1⟩ := by
  unfold nfa_add_state at hadd
  split at hadd
  · cases hadd
  · rename_i hge
    cases hadd
    refine ⟨rfl, rfl, by simp [hsync], by simp only [NFA_MAX_STATES] at hge ⊢; omega, ?_, ?_⟩
    · intro i hi
      show (prog.states ++ [_]).getD i default = prog.states.getD i default
      exact getD_append_lt' _ _ i (by omega)
    · show (prog.states ++ [_]).getD prog.state_count default = _
      rw [hsync, getD_append_len']

theorem finish_tail_ok (pg1 : nfa_program_t) (st1 last : Int) (ea : Bool)
    (prog1 : nfa_program_t)
    (C1 : pg1.state_count = pg1.states.length)
    (C2 : pg1.state_count ≤ NFA_MAX_STATES)
    (C5 : ∀ i : Nat, i < pg1.state_count → (nth_state pg1 i).type ≠ .st_match)
    (hcase : (last = -1) ∨
      (0 ≤ last ∧ last.toNat < pg1.state_count ∧
       0 ≤ st1 ∧ st1 < (pg1.state_count : Int) ∧
       (∀ i : Nat, i < pg1.state_count → i ≠ last.toNat →
          state_ok pg1.state_count (nth_state pg1 i)) ∧
       last_ok pg1 last))
    (h : (match nfa_add_state pg1 .st_match 0 (-1) (-1) with
          | none => none
          | some (prog2, m) =>
            if ea then
              match nfa_add_state prog2 .st_eol 0 (Int.ofNat m) (-1) with
              | none => none
              | some (prog3, eol) =>
                if 0 ≤ last then
                  some { nfa_patch prog3 last (Int.ofNat eol) with start_state := st1 }
                else some { prog3 with start_state := Int.ofNat eol }
            else
              if 0 ≤ last then
                some { nfa_patch prog2 last (Int.ofNat m) with start_state := st1 }
              else some { prog2 with start_state := Int.ofNat m }) = some prog1) :
    compiled_ok prog1 := by
  split at h
  · cases h
  · rename_i pg2 m hadd2
    obtain ⟨hm_eq, hc2, hsync2, hcap2, hfrm2, hnth2⟩ :=
      add_spec pg1 .st_match 0 (-1) (-1) pg2 m C1 hadd2
    split at h
    · split at h
      · cases h
      · rename_i pg3 eol hadd3
        obtain ⟨heol_eq, hc3, hsync3, hcap3, hfrm3, hnth3⟩ :=
          add_spec pg2 .st_eol 0 (Int.ofNat m) (-1) pg3 eol hsync2 hadd3
        split at h
        · rename_i hl0
          cases h
          rcases hcase with hl1 | ⟨hl0', hlt, hst0, hst1, hok, hlok⟩
          · rw [hl1] at hl0
            exact absurd hl0 (by decide)
          · have hcnt : (nfa_patch pg3 last (Int.ofNat eol)).state_count =
                pg1.state_count + 2 := by
              rw [nfa_patch_count]
              omega
            have hfl : nth_state pg3 last.toNat = nth_state pg1 last.toNat := by
              rw [hfrm3 _ (by omega), hfrm2 _ (by omega)]
            refine ⟨?_, ?_, hst0, ?_, Or.inl ?_⟩
            · show (nfa_patch pg3 last (Int.ofNat eol)).state_count =
                (nfa_patch pg3 last (Int.ofNat eol)).states.length
              rw [nfa_patch_count, patch_states_length]
              exact hsync3
            · show (nfa_patch pg3 last (Int.ofNat eol)).state_count ≤ NFA_MAX_STATES
              rw [nfa_patch_count]
              exact hcap3
            · show st1 < ((nfa_patch pg3 last (Int.ofNat eol)).state_count : Int)
              exact lt_of_lt_of_le hst1 (Int.ofNat_le.mpr (by omega))
            · intro i hi
              show state_closed (nfa_patch pg3 last (Int.ofNat eol)).state_count
                (nth_state (nfa_patch pg3 last (Int.ofNat eol)) i)
              have hi' : i < pg1.state_count + 2 := by
                rw [hcnt] at hi
                exact hi
              by_cases hil : i = last.toNat
              · rw [hil]
                refine patch_resolve_closed pg3 last (Int.ofNat eol) _ hl0 (by omega) ?_ ?_
                  (Int.ofNat_nonneg eol) (by rw [hcnt]; exact Int.ofNat_lt.mpr (by omega))
                · rw [hfl]
                  exact C5 _ hlt
                · intro hs
                  rw [hfl] at hs
                  obtain ⟨o1, o2, o3⟩ := hlok hs
                  rw [hfl]
                  exact ⟨o1, lt_of_lt_of_le o2 (by rw [hcnt]; exact Int.ofNat_le.mpr (by omega)), o3⟩
              · rw [patch_frame pg3 last (Int.ofNat eol) i hil]
                by_cases him : i = eol
                · rw [him, hnth3]
                  exact state_closed_intro _ _ (fun hh => nfa_stype_t.noConfusion hh)
                    (Int.ofNat_nonneg m) (by rw [hcnt]; exact Int.ofNat_lt.mpr (by omega))
                    (fun hc => nfa_stype_t.noConfusion hc)
                · by_cases him2 : i = m
                  · rw [him2, hfrm3 _ (by omega), hnth2]
                    exact state_closed_match _ _ rfl rfl
                  · rw [hfrm3 _ (by omega), hfrm2 _ (by omega)]
                    exact state_closed_mono pg1.state_count _ _ (by rw [hcnt]; omega)
                      (state_closed_of_ok _ _ (hok i (by omega) hil) (C5 i (by omega)))
        · rename_i hl0
          cases h
          have hsc : ({ pg3 with start_state := Int.ofNat eol } : nfa_program_t).state_count =
              pg3.state_count := rfl
          refine ⟨hsync3, hcap3, Int.ofNat_nonneg eol, Int.ofNat_lt.mpr (by omega),
            Or.inr ⟨m, by omega, ?_, ?_, Or.inr ⟨eol, by omega, rfl, ?_, ?_⟩⟩⟩
          · show (nth_state pg3 m).type = _
            rw [hfrm3 _ (by omega), hnth2]
          · show (nth_state pg3 m).out = -1
            rw [hfrm3 _ (by omega), hnth2]
          · show (nth_state pg3 eol).type = _
            rw [hnth3]
          · show (nth_state pg3 eol).out = Int.ofNat m
            rw [hnth3]
    · split at h
      · rename_i hl0
        cases h
        rcases hcase with hl1 | ⟨hl0', hlt, hst0, hst1, hok, hlok⟩
        · rw [hl1] at hl0
          exact absurd hl0 (by decide)
        · have hcnt : (nfa_patch pg2 last (Int.ofNat m)).state_count =
              pg1.state_count + 1 := by
            rw [nfa_patch_count]
            omega
          have hfl : nth_state pg2 last.toNat = nth_state pg1 last.toNat :=
            hfrm2 _ (by omega)
          refine ⟨?_, ?_, hst0, ?_, Or.inl ?_⟩
          · show (nfa_patch pg2 last (Int.ofNat m)).state_count =
              (nfa_patch pg2 last (Int.ofNat m)).states.length
            rw [nfa_patch_count, patch_states_length]
            exact hsync2
          · show (nfa_patch pg2 last (Int.ofNat m)).state_count ≤ NFA_MAX_STATES
            rw [nfa_patch_count]
            exact hcap2
          · show st1 < ((nfa_patch pg2 last (Int.ofNat m)).state_count : Int)
            exact lt_of_lt_of_le hst1 (Int.ofNat_le.mpr (by omega))
          · intro i hi
            show state_closed (nfa_patch pg2 last (Int.ofNat m)).state_count
              (nth_state (nfa_patch pg2 last (Int.ofNat m)) i)
            have hi' : i < pg1.state_count + 1 := by
              rw [hcnt] at hi
              exact hi
            by_cases hil : i = last.toNat
            · rw [hil]
              refine patch_resolve_closed pg2 last (Int.ofNat m) _ hl0 (by omega) ?_ ?_
                (Int.ofNat_nonneg m) (by rw [hcnt]; exact Int.ofNat_lt.mpr (by omega))
              · rw [hfl]
                exact C5 _ hlt
              · intro hs
                rw [hfl] at hs
                obtain ⟨o1, o2, o3⟩ := hlok hs
                rw [hfl]
                exact ⟨o1, lt_of_lt_of_le o2 (by rw [hcnt]; exact Int.ofNat_le.mpr (by omega)), o3⟩
            · rw [patch_frame pg2 last (Int.ofNat m) i hil]
              by_cases him2 : i = m
              · rw [him2, hnth2]
                exact state_closed_match _ _ rfl rfl
              · rw [hfrm2 _ (by omega)]
                exact state_closed_mono pg1.state_count _ _ (by rw [hcnt]; omega)
                  (state_closed_of_ok _ _ (hok i (by omega) hil) (C5 i (by omega)))
      · rename_i hl0
        cases h
        have hsc : ({ pg2 with start_state := Int.ofNat m } : nfa_program_t).state_count =
            pg2.state_count := rfl
        refine ⟨hsync2, hcap2, Int.ofNat_nonneg m, Int.ofNat_lt.mpr (by omega),
          Or.inr ⟨m, by omega, ?_, ?_, Or.inl rfl⟩⟩
        · show (nth_state pg2 m).type = _
          rw [hnth2]
        · show (nth_state pg2 m).out = -1
          rw [hnth2]

theorem finish_ok (prog : nfa_program_t) (start last : Int) (sa ea : Bool)
    (prog1 : nfa_program_t) (hinv : loop_inv prog start last)
    (h : nfa_compile_finish prog start last sa ea = some prog1) :
    compiled_ok prog1 := by
  obtain ⟨hsync, hcap, hnom, hdisj⟩ := hinv
  unfold nfa_compile_finish at h
  split at h
  · cases h
  · rename_i pg1 st1 heq1
    split at heq1
    · rename_i hsa
      split at heq1
      · cases heq1
      · rename_i pg1 bol hadd
        cases heq1
        obtain ⟨hbol_eq, hcb, hsyncb, hcapb, hfrmb, hnthb⟩ :=
          add_spec prog .st_bol 0 start (-1) pg1 bol hsync hadd
        refine finish_tail_ok pg1 (Int.ofNat bol) last ea prog1 hsyncb hcapb ?_ ?_ h
        · intro i hi
          by_cases hib : i = bol
          · rw [hib, hnthb]
            exact fun hh => nfa_stype_t.noConfusion hh
          · have hip : i < prog.state_count := by omega
            rw [hfrmb i hip]
            exact hnom i hip
        · rcases hdisj with ⟨hs1, hl1, hempty⟩ | ⟨hs0, hs1, hl0, hl1, hok, hlok⟩
          · exact Or.inl hl1
          · refine Or.inr ⟨hl0, by omega, Int.ofNat_nonneg bol, Int.ofNat_lt.mpr (by omega),
              ?_, ?_⟩
            · intro i hi hil
              by_cases hib : i = bol
              · rw [hib, hnthb]
                refine state_ok_intro _ _ ?_ ?_ ?_
                · exact hs0
                · exact lt_of_lt_of_le hs1 (Int.ofNat_le.mpr (by omega))
                · exact fun hc => nfa_stype_t.noConfusion hc
              · have hip : i < prog.state_count := by omega
                rw [hfrmb i hip]
                exact state_ok_mono _ _ _ (by omega) (hok i hip hil)
            · intro hs
              have hfl : nth_state pg1 last.toNat = nth_state prog last.toNat :=
                hfrmb _ (by omega)
              rw [hfl] at hs ⊢
              obtain ⟨o1, o2, o3⟩ := hlok hs
              exact ⟨o1, lt_of_lt_of_le o2 (Int.ofNat_le.mpr (by omega)), o3⟩
    · rename_i hsa
      cases heq1
      refine finish_tail_ok prog start last ea prog1 hsync hcap hnom ?_ h
      rcases hdisj with ⟨hs1, hl1, hempty⟩ | ⟨hs0, hs1, hl0, hl1, hok, hlok⟩
      · exact Or.inl hl1
      · exact Or.inr ⟨hl0, by omega, hs0, hs1, hok, hlok⟩

theorem compile_ok (pat : List Nat) (cs : Bool) (prog : nfa_program_t)
    (h : nfa_compile pat cs = some prog) : compiled_ok prog := by
  revert h
  simp only [nfa_compile]
  split
  · intro h
    cases h
  · split
    · intro h
      cases h
    · rename_i pg1 rest1 st1 ls1 heq
      have hinv0 : loop_inv (⟨0, 0, cs, []⟩ : nfa_program_t) (-1) (-1) :=
        ⟨rfl, Nat.zero_le _, fun i hi => absurd (show i < 0 from hi) (Nat.not_lt_zero i),
          Or.inl ⟨rfl, rfl, rfl⟩⟩
      have hinv1 := compile_loop_inv cs _ _ _ _ _ pg1 rest1 st1 ls1 hinv0 heq
      split
      · split
        · intro h
          exact finish_ok pg1 st1 ls1 _ _ prog hinv1 h
        · intro h
          cases h
      · split
        · intro h
          exact finish_ok pg1 st1 ls1 _ _ prog hinv1 h
        · intro h
          cases h

theorem state_closed_edges (n : Nat) (st : nfa_state_t) (hc : state_closed n st) :
    (st.out = -1 ∨ (0 ≤ st.out ∧ st.out < (n : Int))) ∧
    (st.type = .st_split → 0 ≤ st.out1 ∧ st.out1 < (n : Int)) := by
  unfold state_closed at hc
  split at hc
  · rename_i hty
    exact ⟨Or.inl hc, fun hsp => absurd (hty.symm.trans hsp)
      (fun hh => nfa_stype_t.noConfusion hh)⟩
  · exact ⟨Or.inr ⟨hc.1, hc.2.1⟩, fun _ => ⟨hc.2.2.1, hc.2.2.2⟩⟩
  · rename_i hty1 hty2
    exact ⟨Or.inr ⟨hc.1, hc.2⟩, fun hsp => absurd hsp hty2⟩

theorem state_closed_elim (n : Nat) (st : nfa_state_t) (hc : state_closed n st)
    (hm : st.type ≠ .st_match) :
    0 ≤ st.out ∧ st.out < (n : Int) ∧
    (st.type = .st_split → 0 ≤ st.out1 ∧ st.out1 < (n : Int)) := by
  obtain ⟨he, hsp⟩ := state_closed_edges n st hc
  rcases he with he | he
  · unfold state_closed at hc
    split at hc
    · rename_i hty
      exact absurd hty hm
    · rename_i hty
      exact ⟨hc.1, hc.2.1, fun _ => ⟨hc.2.2.1, hc.2.2.2⟩⟩
    · exact ⟨hc.1, hc.2, hsp⟩
  · exact ⟨he.1, he.2, hsp⟩

theorem reach_range_closed (prog : nfa_program_t)
    (hc : ∀ i : Nat, i < prog.state_count → state_closed prog.state_count (nth_state prog i))
    (hstart : 0 ≤ prog.start_state ∧ prog.start_state < (prog.state_count : Int)) :
    ∀ s : Int, nfa_reach prog prog.start_state s →
      0 ≤ s ∧ s < (prog.state_count : Int) := by
  intro s hr
  induction hr with
  | refl => exact hstart
  | out h ht hu ih =>
    rename_i t
    obtain ⟨h0, h1⟩ := ih
    have htn : t.toNat < prog.state_count := by omega
    obtain ⟨he, _⟩ := state_closed_edges _ _ (hc _ htn)
    rcases he with he | he
    · rw [he] at hu
      exact absurd hu (by decide)
    · exact he
  | out1 h ht hsp hu ih =>
    rename_i t
    obtain ⟨h0, h1⟩ := ih
    have htn : t.toNat < prog.state_count := by omega
    obtain ⟨_, hsp2⟩ := state_closed_edges _ _ (hc _ htn)
    exact hsp2 hsp

theorem compiled_reach_bounds (prog : nfa_program_t) (hok : compiled_ok prog) :
    ∀ s : Int, nfa_reach prog prog.start_state s →
      (nth_state prog s.toNat).type ≠ .st_match →
      0 ≤ s ∧ s < (prog.state_count : Int) ∧
      0 ≤ (nth_state prog s.toNat).out ∧
      (nth_state prog s.toNat).out < (prog.state_count : Int) ∧
      ((nth_state prog s.toNat).type = .st_split →
        0 ≤ (nth_state prog s.toNat).out1 ∧
        (nth_state prog s.toNat).out1 < (prog.state_count : Int)) := by
  obtain ⟨hsync, hcap, hst0, hst1, hdisj⟩ := hok
  rcases hdisj with hclosed | ⟨m, hm, hmty, hmout, hstart⟩
  · intro s hr hm
    obtain ⟨h0, h1⟩ := reach_range_closed prog hclosed ⟨hst0, hst1⟩ s hr
    have htn : s.toNat < prog.state_count := by omega
    obtain ⟨e1, e2, e3⟩ := state_closed_elim _ _ (hclosed _ htn) hm
    exact ⟨h0, h1, e1, e2, e3⟩
  · have hchar : ∀ s : Int, nfa_reach prog prog.start_state s →
        s = prog.start_state ∨ s = Int.ofNat m := by
      intro s hr
      induction hr with
      | refl => exact Or.inl rfl
      | out h ht hu ih =>
        rename_i t
        rcases hstart with hsm | ⟨e, he, hse, hety, heout⟩
        · rcases ih with hts | htm
          · rw [hts, hsm] at hu
            have hu' : 0 ≤ (nth_state prog m).out := hu
            rw [hmout] at hu'
            exact absurd hu' (by decide)
          · rw [htm] at hu
            have hu' : 0 ≤ (nth_state prog m).out := hu
            rw [hmout] at hu'
            exact absurd hu' (by decide)
        · rcases ih with hts | htm
          · right
            rw [hts, hse]
            exact heout
          · rw [htm] at hu
            have hu' : 0 ≤ (nth_state prog m).out := hu
            rw [hmout] at hu'
            exact absurd hu' (by decide)
      | out1 h ht hsp hu ih =>
        rename_i t
        rcases hstart with hsm | ⟨e, he, hse, hety, heout⟩
        · rcases ih with hts | htm
          · rw [hts, hsm] at hsp
            have hsp' : (nth_state prog m).type = .st_split := hsp
            rw [hmty] at hsp'
            exact nfa_stype_t.noConfusion hsp'
          · rw [htm] at hsp
            have hsp' : (nth_state prog m).type = .st_split := hsp
            rw [hmty] at hsp'
            exact nfa_stype_t.noConfusion hsp'
        · rcases ih with hts | htm
          · rw [hts, hse] at hsp
            have hsp' : (nth_state prog e).type = .st_split := hsp
            rw [hety] at hsp'
            exact nfa_stype_t.noConfusion hsp'
          · rw [htm] at hsp
            have hsp' : (nth_state prog m).type = .st_split := hsp
            rw [hmty] at hsp'
            exact nfa_stype_t.noConfusion hsp'
    intro s hr hm2
    rcases hchar s hr with hs | hs
    · rcases hstart with hsm | ⟨e, he, hse, hety, heout⟩
      · rw [hs, hsm] at hm2
        have hm2' : (nth_state prog m).type ≠ .st_match := hm2
        exact absurd hmty hm2'
      · rw [hs, hse]
        refine ⟨Int.ofNat_nonneg e, Int.ofNat_lt.mpr he, ?_, ?_, ?_⟩
        · show 0 ≤ (nth_state prog e).out
          rw [heout]
          exact Int.ofNat_nonneg m
        · show (nth_state prog e).out < _
          rw [heout]
          exact Int.ofNat_lt.mpr hm
        · intro hc2
          have hc2' : (nth_state prog e).type = .st_split := hc2
          rw [hety] at hc2'
          exact nfa_stype_t.noConfusion hc2'
    · rw [hs] at hm2
      have hm2' : (nth_state prog m).type ≠ .st_match := hm2
      exact absurd hmty hm2'

/-- C8: after `nfa_compile` succeeds, every state reachable from the
program's start state other than the Match state has its `out` successor
equal to a valid index in `[0, state_count)`, and a Split state's `out1`
as well — no edge of a reachable non-Match state is left at the unset
sentinel `-1`. -/
theorem c8_reachable_successors_resolved (pat : List Nat) (cs : Bool)
    (prog : nfa_program_t) (h : nfa_compile pat cs = some prog) (s : Int)
    (hr : nfa_reach prog prog.start_state s)
    (hm : (nth_state prog s.toNat).type ≠ .st_match) :
    0 ≤ s ∧ s < (prog.state_count : Int) ∧
    0 ≤ (nth_state prog s.toNat).out ∧
    (nth_state prog s.toNat).out < (prog.state_count : Int) ∧
    ((nth_state prog s.toNat).type = .st_split →
      0 ≤ (nth_state prog s.toNat).out1 ∧
      (nth_state prog s.toNat).out1 < (prog.state_count : Int)) :=
  compiled_reach_bounds prog (compile_ok pat cs prog h) s hr hm

theorem c8_reachable_successors_resolved_witness :
    nfa_compile [97] true = some prog_a ∧
    (nth_state prog_a (prog_a.start_state).toNat).type ≠ .st_match ∧
    (0 ≤ prog_a.start_state ∧ prog_a.start_state < (prog_a.state_count : Int) ∧
     0 ≤ (nth_state prog_a (prog_a.start_state).toNat).out ∧
     (nth_state prog_a (prog_a.start_state).toNat).out < (prog_a.state_count : Int) ∧
     ((nth_state prog_a (prog_a.start_state).toNat).type = .st_split →
       0 ≤ (nth_state prog_a (prog_a.start_state).toNat).out1 ∧
       (nth_state prog_a (prog_a.start_state).toNat).out1 < (prog_a.state_count : Int))) :=
  ⟨rfl, by decide,
   c8_reachable_successors_resolved [97] true prog_a rfl prog_a.start_state
     (nfa_reach.refl _) (by decide)⟩
